import Mathlib

/-!
Verification of the StripChat mouflon manifest-decryption engine
(`src/stripchat.py`, class `StripChat`): a shallow embedding of
`_loadMouflonKeys`, `getMouflonDecKey`, `_decode`, `_append_params`,
`_getMouflonFromM3U` and `m3u_decoder`, together with the Python 3.11
standard-library semantics they rely on (`str.splitlines`, `hashlib.sha256`,
`base64.b64decode`, `urllib.parse.{urlsplit,urlunsplit,parse_qs,urlencode}`
and `re.sub` replacement templates).

Python strings are modelled as `List Char` (a Python `str` is a sequence of
code points; Lean `Char` excludes surrogates, which cannot appear in decoded
network text here).  Bytes are `Nat` values `< 256` by construction.
-/

deriving instance DecidableEq for Except

abbrev Str := List Char

/-- Convert a Lean string literal to the `List Char` representation. -/
def pyS (s : String) : Str := s.data

/-- Truthiness of a Python string: non-empty. -/
def pyTruthy (s : Str) : Bool := !s.isEmpty

/-- Truthiness of an optional Python string (`None` and `''` are falsy). -/
def pyTruthyO : Option Str → Bool
  | none => false
  | some s => pyTruthy s

/-- Concat-map over a list (used for UTF-8 encoding and digest serialization). -/
def catMap (f : α → List β) : List α → List β
  | [] => []
  | a :: r => f a ++ catMap f r

/-- Python `str.find(sub)`: index of the leftmost occurrence, if any. -/
def findSub (s sub : Str) : Option Nat :=
  (List.range (s.length + 1)).find? (fun i => sub.isPrefixOf (s.drop i))

/-- Python `str.find(sub, start)`: leftmost occurrence at index `≥ start`. -/
def findSubFrom (s sub : Str) (start : Nat) : Option Nat :=
  (findSub (s.drop start) sub).map (· + start)

/-- Python substring containment `sub in s`. -/
def strIn (sub s : Str) : Bool := (findSub s sub).isSome

/-- Python slice `s[a:b]` for `0 ≤ a ≤ b` (empty when `b ≤ a`). -/
def pySlice (s : Str) (a b : Nat) : Str := (s.take b).drop a

/-- Line-break characters recognized by Python `str.splitlines`. -/
def isLineBreak (c : Char) : Bool :=
  c = '\n' || c = '\r' || c = '\x0b' || c = '\x0c' ||
  c = '\x1c' || c = '\x1d' || c = '\x1e' || c = '\x85' ||
  c = ' ' || c = ' '

/-- Worker for `pySplitlines` on a string whose `\r\n` pairs are already
    collapsed; `cur` is the current line, reversed. -/
def splitLinesGo : Str → Str → List Str
  | cur, [] => if cur.isEmpty then [] else [cur.reverse]
  | cur, c :: r =>
    if isLineBreak c then cur.reverse :: splitLinesGo [] r
    else splitLinesGo (c :: cur) r

/-- Worker for `splitOnChar`; `cur` is the current field, reversed. -/
def splitChGo (sep : Char) : Str → Str → List Str
  | cur, [] => [cur.reverse]
  | cur, c :: r =>
    if c = sep then cur.reverse :: splitChGo sep [] r
    else splitChGo sep (c :: cur) r

/-- Python `str.split(sep)` for a one-character separator (`''.split` gives `['']`). -/
def splitOnChar (sep : Char) (s : Str) : List Str := splitChGo sep [] s

/-- Python `str.split(sep, 1)` outcome: `none` when `sep` does not occur. -/
def splitOnce (sep : Char) : Str → Option (Str × Str)
  | [] => none
  | c :: r =>
    if c = sep then some ([], r)
    else (splitOnce sep r).map (fun p => (c :: p.1, p.2))

/-- Python `str.replace(old, new)` for non-empty `old` (all occurrences,
    left to right, non-overlapping).  Every call site in the source uses a
    non-empty `old`; for `old = []` we return `s` unchanged. -/
def replaceGo (old new : Str) : Nat → Str → Str
  | _, [] => []
  | 0, s => s
  | fuel + 1, c :: r =>
    if old.isPrefixOf (c :: r) then new ++ replaceGo old new fuel ((c :: r).drop old.length)
    else c :: replaceGo old new fuel r

def replaceAll (s old new : Str) : Str :=
  if old.isEmpty then s else replaceGo old new s.length s

/-- Python `str.splitlines()` (universal newlines, terminators dropped).
    CPython scans left to right treating `\r\n` as a single boundary; this
    is equivalent to first collapsing `\r\n` pairs to `\n` (the same greedy
    left-to-right pairing) and then splitting at every line-break
    character. -/
def pySplitlines (s : Str) : List Str :=
  splitLinesGo [] (replaceAll s (pyS "\r\n") (pyS "\n"))

/-- Characters for which Python `str.isspace()` holds (the set stripped by
    `str.strip()` with no argument). -/
def pyIsSpace (c : Char) : Bool :=
  c = ' ' || c = '\t' || c = '\n' || c = '\r' || c = '\x0b' || c = '\x0c' ||
  c = '\x1c' || c = '\x1d' || c = '\x1e' || c = '\x1f' || c = '\x85' ||
  c = '\xa0' || c = ' ' ||
  (0x2000 ≤ c.toNat && c.toNat ≤ 0x200a) ||
  c = ' ' || c = ' ' || c = ' ' || c = ' ' || c = '　'

/-- Python `str.strip()` with no argument. -/
def pyStrip (s : Str) : Str :=
  ((s.dropWhile pyIsSpace).reverse.dropWhile pyIsSpace).reverse

/-- Ordered-dict lookup (`d[k]` / `d.get(k)`), first matching key. -/
def dGet (d : List (Str × α)) (k : Str) : Option α :=
  (d.find? (fun kv => kv.1 = k)).map (·.2)

/-- Ordered-dict membership (`k in d`). -/
def dHas (d : List (Str × α)) (k : Str) : Bool := (dGet d k).isSome

/-- Ordered-dict assignment `d[k] = v`: update in place if the key exists,
    otherwise append (Python 3.7+ dict insertion-order semantics). -/
def dSet (d : List (Str × α)) (k : Str) (v : α) : List (Str × α) :=
  match d with
  | [] => [(k, v)]
  | kv :: rest => if kv.1 = k then (k, v) :: rest else kv :: dSet rest k v

/-! ## UTF-8 (Python `str.encode('utf-8')` / `bytes.decode('utf-8')`) -/

/-- UTF-8 encoding of a single code point. -/
def utf8EncodeChar (c : Char) : List Nat :=
  let n := c.toNat
  if n < 0x80 then [n]
  else if n < 0x800 then [0xc0 + n / 64, 0x80 + n % 64]
  else if n < 0x10000 then [0xe0 + n / 4096, 0x80 + n / 64 % 64, 0x80 + n % 64]
  else [0xf0 + n / 262144, 0x80 + n / 4096 % 64, 0x80 + n / 64 % 64, 0x80 + n % 64]

/-- Python `str.encode('utf-8')`. -/
def utf8Encode (s : Str) : List Nat := catMap utf8EncodeChar s

/-! ## SHA-256 (`hashlib.sha256(...).digest()`)

Words are `Nat` values `< 2^32`; `w32` reduces modulo `2^32`. -/

def w32 (x : Nat) : Nat := x % 4294967296

/-- Right rotation of a 32-bit word. -/
def rotr (n x : Nat) : Nat := (x >>> n) + w32 (x <<< (32 - n))

/-- Bitwise complement of a 32-bit word (valid for `x < 2^32`). -/
def compl32 (x : Nat) : Nat := 4294967295 - x

/-- The eight 32-bit words of a SHA-256 working state. -/
structure Hash8 where
  a : Nat
  b : Nat
  c : Nat
  d : Nat
  e : Nat
  f : Nat
  g : Nat
  h : Nat

/-- SHA-256 initial hash value. -/
def sha256H0 : Hash8 :=
  ⟨0x6a09e667, 0xbb67ae85, 0x3c6ef372, 0xa54ff53a,
   0x510e527f, 0x9b05688c, 0x1f83d9ab, 0x5be0cd19⟩

/-- SHA-256 round constants. -/
def sha256K : List Nat :=
  [1116352408, 1899447441, 3049323471, 3921009573, 961987163, 1508970993,
   2453635748, 2870763221, 3624381080, 310598401, 607225278, 1426881987,
   1925078388, 2162078206, 2614888103, 3248222580, 3835390401, 4022224774,
   264347078, 604807628, 770255983, 1249150122, 1555081692, 1996064986,
   2554220882, 2821834349, 2952996808, 3210313671, 3336571891, 3584528711,
   113926993, 338241895, 666307205, 773529912, 1294757372, 1396182291,
   1695183700, 1986661051, 2177026350, 2456956037, 2730485921, 2820302411,
   3259730800, 3345764771, 3516065817, 3600352804, 4094571909, 275423344,
   430227734, 506948616, 659060556, 883997877, 958139571, 1322822218,
   1537002063, 1747873779, 1955562222, 2024104815, 2227730452, 2361852424,
   2428436474, 2756734187, 3204031479, 3329325298]

/-- Big-endian 32-bit words from a byte list whose length is a multiple of 4. -/
def toWords : List Nat → List Nat
  | b3 :: b2 :: b1 :: b0 :: rest => (((b3 * 256 + b2) * 256 + b1) * 256 + b0) :: toWords rest
  | _ => []

/-- One step of the SHA-256 message-schedule extension. -/
def wStep (ws : List Nat) : List Nat :=
  let n := ws.length
  let x15 := ws.getD (n - 15) 0
  let x2 := ws.getD (n - 2) 0
  let s0 := Nat.xor (rotr 7 x15) (Nat.xor (rotr 18 x15) (x15 >>> 3))
  let s1 := Nat.xor (rotr 17 x2) (Nat.xor (rotr 19 x2) (x2 >>> 10))
  ws ++ [w32 (ws.getD (n - 16) 0 + s0 + ws.getD (n - 7) 0 + s1)]

/-- Extend the 16 block words to the 64 schedule words. -/
def extendTo64 (ws : List Nat) : List Nat :=
  (List.range 48).foldl (fun acc _ => wStep acc) ws

/-- One SHA-256 compression round, consuming a `(Kᵢ, Wᵢ)` pair. -/
def sha256Round (st : Hash8) (kw : Nat × Nat) : Hash8 :=
  let S1 := Nat.xor (rotr 6 st.e) (Nat.xor (rotr 11 st.e) (rotr 25 st.e))
  let ch := Nat.xor (Nat.land st.e st.f) (Nat.land (compl32 st.e) st.g)
  let temp1 := w32 (st.h + S1 + ch + kw.1 + kw.2)
  let S0 := Nat.xor (rotr 2 st.a) (Nat.xor (rotr 13 st.a) (rotr 22 st.a))
  let maj := Nat.xor (Nat.land st.a st.b) (Nat.xor (Nat.land st.a st.c) (Nat.land st.b st.c))
  let temp2 := w32 (S0 + maj)
  ⟨w32 (temp1 + temp2), st.a, st.b, st.c, w32 (st.d + temp1), st.e, st.f, st.g⟩

/-- SHA-256 compression of one 64-byte block. -/
def sha256Compress (H : Hash8) (block : List Nat) : Hash8 :=
  let W := extendTo64 (toWords block)
  let st := (sha256K.zip W).foldl sha256Round H
  ⟨w32 (H.a + st.a), w32 (H.b + st.b), w32 (H.c + st.c), w32 (H.d + st.d),
   w32 (H.e + st.e), w32 (H.f + st.f), w32 (H.g + st.g), w32 (H.h + st.h)⟩

/-- Worker for `chunks64`; `acc` is the current chunk, reversed. -/
def chunks64Go : List Nat → List Nat → List (List Nat)
  | acc, [] => if acc.isEmpty then [] else [acc.reverse]
  | acc, b :: r =>
    if acc.length = 63 then (acc.reverse ++ [b]) :: chunks64Go [] r
    else chunks64Go (b :: acc) r

/-- Split a byte list into 64-byte chunks (the last chunk may be shorter;
    SHA-256 only ever passes lists whose length is a multiple of 64). -/
def chunks64 (l : List Nat) : List (List Nat) := chunks64Go [] l

/-- Big-endian serialization of a 32-bit word. -/
def w4 (x : Nat) : List Nat :=
  [(x >>> 24) % 256, (x >>> 16) % 256, (x >>> 8) % 256, x % 256]

/-- Big-endian 8-byte serialization (for the SHA-256 length field). -/
def be8 (n : Nat) : List Nat :=
  [(n >>> 56) % 256, (n >>> 48) % 256, (n >>> 40) % 256, (n >>> 32) % 256,
   (n >>> 24) % 256, (n >>> 16) % 256, (n >>> 8) % 256, n % 256]

/-- `hashlib.sha256(msg).digest()`: the 32-byte SHA-256 digest. -/
def sha256 (msg : List Nat) : List Nat :=
  let padLen := (119 - msg.length % 64) % 64
  let padded := msg ++ 0x80 :: (List.replicate padLen 0 ++ be8 (msg.length * 8))
  let Hf := (chunks64 padded).foldl sha256Compress sha256H0
  w4 Hf.a ++ w4 Hf.b ++ w4 Hf.c ++ w4 Hf.d ++ w4 Hf.e ++ w4 Hf.f ++ w4 Hf.g ++ w4 Hf.h

/-! ## UTF-8 decoding (`bytes.decode('utf-8')`, strict and `errors='replace'`) -/

/-- Analyze the UTF-8 sequence starting at byte `b` with following bytes
    `rest`.  `.ok (cp, k)` decodes code point `cp` consuming `k` bytes of
    `rest`; `.error k` marks an ill-formed sequence whose maximal subpart
    consumes `k` bytes of `rest` beyond `b` (CPython's `errors='replace'`
    substitutes one U+FFFD for that subpart). -/
def utf8Analyze (b : Nat) (rest : List Nat) : Except Nat (Nat × Nat) :=
  let cont := fun (x : Nat) => 0x80 ≤ x && x < 0xc0
  if b < 0x80 then .ok (b, 0)
  else if b < 0xc2 then .error 0
  else if b < 0xe0 then
    match rest with
    | b1 :: _ =>
      if cont b1 then .ok ((b - 0xc0) * 64 + (b1 - 0x80), 1) else .error 0
    | _ => .error 0
  else if b < 0xf0 then
    let lo2 := if b = 0xe0 then 0xa0 else 0x80
    let hi2 := if b = 0xed then 0xa0 else 0xc0
    match rest with
    | b1 :: rest1 =>
      if lo2 ≤ b1 && b1 < hi2 then
        match rest1 with
        | b2 :: _ =>
          if cont b2 then .ok ((b - 0xe0) * 4096 + (b1 - 0x80) * 64 + (b2 - 0x80), 2)
          else .error 1
        | _ => .error 1
      else .error 0
    | _ => .error 0
  else if b < 0xf5 then
    let lo2 := if b = 0xf0 then 0x90 else 0x80
    let hi2 := if b = 0xf4 then 0x90 else 0xc0
    match rest with
    | b1 :: rest1 =>
      if lo2 ≤ b1 && b1 < hi2 then
        match rest1 with
        | b2 :: rest2 =>
          if cont b2 then
            match rest2 with
            | b3 :: _ =>
              if cont b3 then
                .ok ((b - 0xf0) * 262144 + (b1 - 0x80) * 4096 + (b2 - 0x80) * 64 + (b3 - 0x80), 3)
              else .error 2
            | _ => .error 2
          else .error 1
        | _ => .error 1
      else .error 0
    | _ => .error 0
  else .error 0

/-- Strict UTF-8 decoding worker; the fuel is an upper bound on the number
    of decoded sequences (each consumes at least one byte, so the input
    length suffices and the fuel-exhausted case is unreachable). -/
def utf8DecodeGo : Nat → List Nat → Except Unit Str
  | _, [] => .ok []
  | 0, _ => .error ()
  | fuel + 1, b :: rest =>
    match utf8Analyze b rest with
    | .ok (cp, k) =>
      match utf8DecodeGo fuel (rest.drop k) with
      | .ok s => .ok (Char.ofNat cp :: s)
      | .error e => .error e
    | .error _ => .error ()

/-- Strict UTF-8 decoding (`bytes.decode('utf-8')`); an ill-formed sequence
    raises `UnicodeDecodeError`, modelled as `.error ()`. -/
def utf8DecodeStrict (l : List Nat) : Except Unit Str := utf8DecodeGo l.length l

/-- Worker for `utf8DecodeReplace` (fuel as in `utf8DecodeGo`). -/
def utf8ReplaceGo : Nat → List Nat → Str
  | _, [] => []
  | 0, _ => []
  | fuel + 1, b :: rest =>
    match utf8Analyze b rest with
    | .ok (cp, k) => Char.ofNat cp :: utf8ReplaceGo fuel (rest.drop k)
    | .error k => '\ufffd' :: utf8ReplaceGo fuel (rest.drop k)

/-- UTF-8 decoding with `errors='replace'`: each maximal subpart of an
    ill-formed sequence becomes one U+FFFD. -/
def utf8DecodeReplace (l : List Nat) : Str := utf8ReplaceGo l.length l

/-! ## Base64 (`base64.b64decode`, CPython 3.11 non-strict `a2b_base64`) -/

/-- The base64 alphabet value of a character (`table_a2b_base64`). -/
def b64Val (c : Char) : Option Nat :=
  if 'A' ≤ c && c ≤ 'Z' then some (c.toNat - 65)
  else if 'a' ≤ c && c ≤ 'z' then some (c.toNat - 97 + 26)
  else if '0' ≤ c && c ≤ '9' then some (c.toNat - 48 + 52)
  else if c = '+' then some 62
  else if c = '/' then some 63
  else none

/-- State of the `binascii.a2b_base64` scanner (non-strict mode). -/
structure B64State where
  quadPos : Nat
  leftchar : Nat
  pads : Nat
  done : Bool
  out : List Nat

/-- One character step of non-strict `a2b_base64`: invalid characters are
    discarded; `=` finishes the quad once `quad_pos + pads ≥ 4` with
    `quad_pos ≥ 2`; data characters reset the pad count. -/
def b64Step (s : B64State) (c : Char) : B64State :=
  if s.done then s
  else if c = '=' then
    if 2 ≤ s.quadPos then
      if 4 ≤ s.quadPos + (s.pads + 1) then { s with done := true }
      else { s with pads := s.pads + 1 }
    else s
  else
    match b64Val c with
    | none => s
    | some v =>
      match s.quadPos with
      | 0 => ⟨1, v, 0, false, s.out⟩
      | 1 => ⟨2, v % 16, 0, false, s.out ++ [s.leftchar * 4 + v / 16]⟩
      | 2 => ⟨3, v % 4, 0, false, s.out ++ [s.leftchar * 16 + v / 4]⟩
      | _ => ⟨0, 0, 0, false, s.out ++ [s.leftchar * 64 + v]⟩

/-- `binascii.a2b_base64(s, strict_mode=False)`: `.error ()` is
    `binascii.Error` (incorrect padding / leftover data characters). -/
def a2bBase64 (s : Str) : Except Unit (List Nat) :=
  let st := s.foldl b64Step ⟨0, 0, 0, false, []⟩
  if st.done then .ok st.out
  else if st.quadPos = 0 then .ok st.out
  else .error ()

/-- Error kinds a call to `_decode` can raise: `base64.b64decode` raises
    `ValueError` on non-ASCII input and `binascii.Error` on bad padding;
    `bytes.decode('utf-8')` raises `UnicodeDecodeError`. -/
inductive DecodeErr
  | valueErrorNonAscii
  | binasciiError
  | unicodeDecodeError
deriving DecidableEq

/-- `base64.b64decode` on a `str` argument (`validate=False`). -/
def pyB64Decode (s : Str) : Except DecodeErr (List Nat) :=
  if s.all (fun c => c.toNat < 128) then
    match a2bBase64 s with
    | .ok bs => .ok bs
    | .error _ => .error .binasciiError
  else .error .valueErrorNonAscii

/-! ## `StripChat._decode`: SHA-256 mask, cycled XOR, UTF-8 text -/

/-- The SHA-256 digest of the UTF-8 encoded decode key
    (`hashlib.sha256(key.encode("utf-8")).digest()`). -/
def mouflonMask (key : Str) : List Nat := sha256 (utf8Encode key)

/-- `itertools.cycle(mask)` truncated to `n` elements (empty when the mask
    is empty, exactly as `zip` with `cycle(())` yields nothing). -/
def cycleTake (mask : List Nat) (n : Nat) : List Nat :=
  if mask.isEmpty then []
  else (List.range n).map (fun i => mask.getD (i % mask.length) 0)

/-- `bytes(a ^ b for (a, b) in zip(data, itertools.cycle(mask)))`. -/
def xorCycle (data mask : List Nat) : List Nat :=
  List.zipWith Nat.xor data (cycleTake mask data.length)

/-- `StripChat.m3u_decoder._decode(encrypted_b64, key)` with exceptions as
    values: append exactly `"=="`, base64-decode, XOR against the cycled
    SHA-256 mask of the key, decode the result as UTF-8. -/
def mouflonDecode (encrypted_b64 : Str) (key : Str) : Except DecodeErr Str :=
  let hash := mouflonMask key
  match pyB64Decode (encrypted_b64 ++ pyS "==") with
  | .error e => .error e
  | .ok data =>
    match utf8DecodeStrict (xorCycle data hash) with
    | .ok s => .ok s
    | .error _ => .error .unicodeDecodeError

/-! ## Character classes and numeric parsing -/

def isAsciiDigit (c : Char) : Bool := '0' ≤ c && c ≤ '9'

def isAsciiLetter (c : Char) : Bool := ('a' ≤ c && c ≤ 'z') || ('A' ≤ c && c ≤ 'Z')

def isHexDigitCh (c : Char) : Bool :=
  isAsciiDigit c || ('a' ≤ c && c ≤ 'f') || ('A' ≤ c && c ≤ 'F')

def isOctDigit (c : Char) : Bool := '0' ≤ c && c ≤ '7'

def hexVal (c : Char) : Nat :=
  if isAsciiDigit c then c.toNat - 48
  else if 'a' ≤ c && c ≤ 'f' then c.toNat - 87
  else c.toNat - 55

def natOfDigits (s : Str) : Nat := s.foldl (fun n c => n * 10 + (c.toNat - 48)) 0

/-- Digit run with single underscores between digits (Python numeric literals
    as accepted by `int()`); the first character must already be a digit. -/
def digitsUndGo : Str → Bool
  | [] => true
  | '_' :: c :: r => isAsciiDigit c && digitsUndGo r
  | c :: r => isAsciiDigit c && digitsUndGo r

/-- Python `int(s)` for a decimal string: surrounding whitespace, an optional
    sign, digits with optional single underscores between them. -/
def pyIntParse (s : Str) : Option Int :=
  let t := pyStrip s
  let p : Bool × Str :=
    match t with
    | '+' :: r => (false, r)
    | '-' :: r => (true, r)
    | r => (false, r)
  let d := p.2
  if isAsciiDigit (d.headD ' ') && digitsUndGo d then
    let n : Int := natOfDigits (d.filter (· ≠ '_'))
    some (if p.1 then -n else n)
  else none

/-! ## Percent-coding (`urllib.parse.quote/quote_plus/unquote`) -/

/-- The RFC 3986 unreserved characters, never quoted by `quote`. -/
def alwaysSafe (c : Char) : Bool :=
  isAsciiLetter c || isAsciiDigit c || c = '_' || c = '.' || c = '-' || c = '~'

def hexUpper (n : Nat) : Char := if n < 10 then Char.ofNat (48 + n) else Char.ofNat (55 + n)

/-- Quote one byte of the UTF-8 encoding (`%XX` upper-case for unsafe bytes). -/
def quoteByte (safe : Str) (b : Nat) : Str :=
  if b < 128 && (alwaysSafe (Char.ofNat b) || safe.contains (Char.ofNat b)) then [Char.ofNat b]
  else ['%', hexUpper (b / 16), hexUpper (b % 16)]

/-- `urllib.parse.quote(s, safe)` for `str` input (UTF-8, strict). -/
def pyQuote (s : Str) (safe : Str) : Str := catMap (quoteByte safe) (utf8Encode s)

/-- `urllib.parse.quote_plus(s)` with `safe=''` (the `urlencode` default). -/
def pyQuotePlus (s : Str) : Str :=
  if s.contains ' ' then (pyQuote s [' ']).map (fun c => if c = ' ' then '+' else c)
  else pyQuote s []

def joinSep (sep : Str) : List Str → Str
  | [] => []
  | [x] => x
  | x :: r => x ++ sep ++ joinSep sep r

/-- `urllib.parse.urlencode(d)` over single-valued string pairs
    (`doseq=False`, default `quote_via=quote_plus`). -/
def pyUrlencode (q : List (Str × Str)) : Str :=
  joinSep ['&'] (q.map (fun kv => pyQuotePlus kv.1 ++ '=' :: pyQuotePlus kv.2))

def asciiBytes (s : Str) : List Nat := s.map Char.toNat

/-- `urllib.parse.unquote_to_bytes` on a pure-ASCII run: split on `%`, turn
    each valid two-hex-digit pair into a byte, keep invalid escapes verbatim. -/
def unquoteToBytes (run : Str) : List Nat :=
  match splitOnChar '%' run with
  | [] => []
  | p0 :: items =>
    asciiBytes p0 ++ catMap (fun it =>
      match it with
      | a :: b :: rest =>
        if isHexDigitCh a && isHexDigitCh b then (hexVal a * 16 + hexVal b) :: asciiBytes rest
        else 37 :: asciiBytes it
      | _ => 37 :: asciiBytes it) items

/-- Decode one maximal ASCII run of `unquote` (UTF-8 with `errors='replace'`). -/
def unquoteRun (run : Str) : Str := utf8DecodeReplace (unquoteToBytes run)

/-- Worker of `pyUnquote`: percent-decode maximal ASCII runs, pass
    non-ASCII characters through unchanged (fuel: each step consumes at
    least one character). -/
def unquoteGo : Nat → Str → Str
  | _, [] => []
  | 0, s => s
  | fuel + 1, c :: r =>
    if c.toNat < 128 then
      let runTail := r.takeWhile (fun ch => ch.toNat < 128)
      unquoteRun (c :: runTail) ++ unquoteGo fuel (r.drop runTail.length)
    else c :: unquoteGo fuel r

/-- `urllib.parse.unquote(s)` (`encoding='utf-8'`, `errors='replace'`). -/
def pyUnquote (s : Str) : Str := if s.contains '%' then unquoteGo s.length s else s

/-! ## Query strings (`parse_qsl`, `parse_qs`, `keep_blank_values=True`) -/

def plusToSpace (s : Str) : Str := s.map (fun c => if c = '+' then ' ' else c)

/-- `urllib.parse.parse_qsl(qs, keep_blank_values=True)`. -/
def parseQsl (qs : Str) : List (Str × Str) :=
  let pairs := if qs.isEmpty then [] else splitOnChar '&' qs
  pairs.filterMap (fun nv =>
    if nv.isEmpty then none
    else
      let p := match splitOnce '=' nv with
        | some pr => pr
        | none => (nv, [])
      some (pyUnquote (plusToSpace p.1), pyUnquote (plusToSpace p.2)))

/-- Append a value to a key's list, keeping dict insertion order
    (`parsed_result[name].append(value)` / fresh `[value]`). -/
def dAppend (d : List (Str × List Str)) (k : Str) (v : Str) : List (Str × List Str) :=
  match d with
  | [] => [(k, [v])]
  | kv :: rest => if kv.1 = k then (kv.1, kv.2 ++ [v]) :: rest else kv :: dAppend rest k v

/-- `urllib.parse.parse_qs(qs, keep_blank_values=True)` as an ordered dict. -/
def parseQs (qs : Str) : List (Str × List Str) :=
  (parseQsl qs).foldl (fun d kv => dAppend d kv.1 kv.2) []

/-! ## `urllib.parse.urlsplit` / `urlunsplit` (CPython 3.11) -/

/-- `ipaddress` IPv4 octet: 1–3 decimal digits, no leading zeros, `≤ 255`. -/
def parseOctet (s : Str) : Bool :=
  !s.isEmpty && s.length ≤ 3 && s.all isAsciiDigit &&
  (s = ['0'] || s.headD '0' ≠ '0') && natOfDigits s ≤ 255

def validIPv4 (s : Str) : Bool :=
  let parts := splitOnChar '.' s
  parts.length = 4 && parts.all parseOctet

/-- `ipaddress` IPv6 hextet: 1–4 hex digits. -/
def validHextet (s : Str) : Bool := !s.isEmpty && s.length ≤ 4 && s.all isHexDigitCh

/-- Part-list validation of `ipaddress._ip_int_from_string` for IPv6. -/
def validIPv6Parts (parts : List Str) : Bool :=
  if parts.length > 9 then false
  else
    let inner := (parts.drop 1).dropLast
    if inner.countP (·.isEmpty) > 1 then false
    else
      match inner.findIdx? (·.isEmpty) with
      | some i =>
        let skip := i + 1
        let hi0 := skip
        let lo0 := parts.length - skip - 1
        let headEmpty := (parts.headD ['x']).isEmpty
        let lastEmpty := (parts.getLastD ['x']).isEmpty
        let hi := if headEmpty then hi0 - 1 else hi0
        let lo := if lastEmpty then lo0 - 1 else lo0
        if headEmpty && hi ≠ 0 then false
        else if lastEmpty && lo ≠ 0 then false
        else if hi + lo > 7 then false
        else (parts.take hi).all validHextet &&
             (parts.drop (parts.length - lo)).all validHextet
      | none =>
        parts.length = 8 && !(parts.headD []).isEmpty && !(parts.getLastD []).isEmpty &&
        parts.all validHextet

/-- `ipaddress.IPv6Address` textual validity. -/
def validIPv6 (s : Str) : Bool :=
  let parts0 := splitOnChar ':' s
  if parts0.length < 3 then false
  else
    let lastP := parts0.getLastD []
    if lastP.contains '.' then
      validIPv4 lastP && validIPv6Parts (parts0.dropLast ++ [['0'], ['0']])
    else validIPv6Parts parts0

/-- `urllib.parse._check_bracketed_host` as a Boolean (`false` = `ValueError`). -/
def checkBracketedHost (h : Str) : Bool :=
  if h.headD ' ' = 'v' then
    match h with
    | 'v' :: t =>
      let hx := t.takeWhile isHexDigitCh
      let rest := t.drop hx.length
      !hx.isEmpty &&
        (match rest with
         | '.' :: tail => !tail.isEmpty && tail.all (· ≠ '\n')
         | _ => false)
    | _ => false
  else validIPv6 h

/-- The substring checked by `_check_bracketed_host`:
    `netloc.partition('[')[2].partition(']')[0]`. -/
def bracketedPart (netloc : Str) : Str :=
  let after := match splitOnce '[' netloc with
    | some p => p.2
    | none => []
  match splitOnce ']' after with
  | some p => p.1
  | none => after

structure SplitResult where
  scheme : Str
  netloc : Str
  path : Str
  query : Str
  fragment : Str
deriving Repr, DecidableEq

def schemeCharsList : Str :=
  pyS "abcdefghijklmnopqrstuvwxyzABCDEFGHIJKLMNOPQRSTUVWXYZ0123456789+-."

/-- Fragment (first, on `#`) and query (then, on `?`) extraction. -/
def splitFragQuery (u : Str) : Str × Str × Str :=
  let fq := match splitOnce '#' u with
    | some p => p
    | none => (u, [])
  let pq := match splitOnce '?' fq.1 with
    | some p => p
    | none => (fq.1, [])
  (pq.1, pq.2, fq.2)

/-- The input cleaning of `urlsplit`: strip leading C0-control/space
    characters, remove every tab/CR/LF. -/
def cleanUrl (url0 : Str) : Str :=
  (url0.dropWhile (fun c => c.toNat ≤ 0x20)).filter
    (fun c => !(c = '\t' || c = '\r' || c = '\n'))

/-- The scheme split of `urlsplit`: at the first `':'`, when the part before
    it is a valid scheme (leading ASCII letter, scheme characters only),
    lower-cased. -/
def splitScheme (u : Str) : Str × Str :=
  match findSub u [':'] with
  | some i =>
    if 0 < i && isAsciiLetter (u.headD ' ') &&
       (u.take i).all (fun c => schemeCharsList.contains c)
    then ((u.take i).map Char.toLower, u.drop (i + 1))
    else ([], u)
  | none => ([], u)

/-- The netloc split of `urlsplit` (`_splitnetloc(url, 2)`): the part after
    `//` up to the first `/`, `?` or `#`, and the rest. -/
def splitNetloc (u2 : Str) : Str × Str :=
  let netloc := (u2.drop 2).takeWhile (fun c => !(c = '/' || c = '?' || c = '#'))
  (netloc, (u2.drop 2).drop netloc.length)

/-- `urllib.parse.urlsplit` (CPython 3.11): strip leading C0-control/space,
    remove tab/CR/LF, split off scheme, netloc (with bracket validation),
    fragment and query.  `.error ()` is `ValueError`.  (The NFKC confusable
    check `_checknetloc` applies only to non-ASCII netlocs and is modelled
    as accepting.) -/
def pyUrlsplit (url0 : Str) : Except Unit SplitResult :=
  let u := cleanUrl url0
  let su := splitScheme u
  let scheme := su.1
  let u2 := su.2
  if u2.take 2 = pyS "//" then
    let nl := splitNetloc u2
    let netloc := nl.1
    let u3 := nl.2
    if (netloc.contains '[' && !netloc.contains ']') ||
       (netloc.contains ']' && !netloc.contains '[') then .error ()
    else if netloc.contains '[' && netloc.contains ']' &&
            !checkBracketedHost (bracketedPart netloc) then .error ()
    else
      let t := splitFragQuery u3
      .ok ⟨scheme, netloc, t.1, t.2.1, t.2.2⟩
  else
    let t := splitFragQuery u2
    .ok ⟨scheme, [], t.1, t.2.1, t.2.2⟩

def usesNetlocList : List Str :=
  [[], pyS "ftp", pyS "http", pyS "gopher", pyS "nntp", pyS "telnet", pyS "imap",
   pyS "wais", pyS "file", pyS "mms", pyS "https", pyS "shttp", pyS "snews",
   pyS "prospero", pyS "rtsp", pyS "rtsps", pyS "rtspu", pyS "rsync", pyS "svn",
   pyS "svn+ssh", pyS "sftp", pyS "nfs", pyS "git", pyS "git+ssh", pyS "ws", pyS "wss"]

/-- `urllib.parse.urlunsplit` (CPython 3.11). -/
def pyUrlunsplit (c : SplitResult) : Str :=
  let url0 := c.path
  let url1 :=
    if pyTruthy c.netloc ||
       (pyTruthy c.scheme && usesNetlocList.contains c.scheme && url0.take 2 != pyS "//") then
      let u := if pyTruthy url0 && url0.take 1 != pyS "/" then '/' :: url0 else url0
      pyS "//" ++ c.netloc ++ u
    else url0
  let url2 := if pyTruthy c.scheme then c.scheme ++ ':' :: url1 else url1
  let url3 := if pyTruthy c.query then url2 ++ '?' :: c.query else url2
  if pyTruthy c.fragment then url3 ++ '#' :: c.fragment else url3

/-! ## `re` replacement templates and substitution for `URI="([^"]+)"`

`m3u_decoder` rewrites `#EXT-X-MAP:`/`#EXT-X-PART:` lines with
`re.sub(r'URI="([^\"]+)"', f'URI="{new_uri}"', line)`.  The replacement is a
*template*: backslash escapes in it are interpreted (and can raise
`re.error`/`IndexError`).  The pattern has exactly one capture group. -/

/-- Exceptions the template parser (`sre_parse.parse_template`) can raise. -/
inductive PyExn
  | badEscape
  | missingLt
  | missingGtName
  | badGroupName
  | invalidGroupRef
  | octalOutOfRange
  | unknownGroupName
deriving DecidableEq

/-- A parsed template piece: a literal or a group reference. -/
inductive TmplPiece
  | lit (s : Str)
  | group (n : Nat)

/-- ASCII identifier test (`str.isidentifier` restricted to ASCII; named
    groups cannot occur in the pattern here, so an identifier name is an
    unknown group). -/
def isAsciiIdent (s : Str) : Bool :=
  match s with
  | [] => false
  | c :: r => (isAsciiLetter c || c = '_') && r.all (fun x => isAsciiLetter x || isAsciiDigit x || x = '_')

/-- Parse `\\g<name>` after the `g` has been consumed; `ngroups` is the number
    of capture groups of the pattern.  Returns the referenced group and the
    number of characters consumed (`<` + name + `>`). -/
def parseGroupName (ngroups : Nat) (s : Str) : Except PyExn (Nat × Nat) :=
  match s with
  | '<' :: r =>
    match splitOnce '>' r with
    | none => .error .missingGtName
    | some (name, _) =>
      if name.isEmpty then .error .missingGtName
      else if isAsciiIdent name then .error .unknownGroupName
      else
        match pyIntParse name with
        | some i =>
          if i < 0 then .error .badGroupName
          else if i.toNat > ngroups then .error .invalidGroupRef
          else .ok (i.toNat, name.length + 2)
        | none => .error .badGroupName
  | _ => .error .missingLt

/-- One step of `sre_parse.parse_template`: the next template piece and the
    total number of characters it consumes (`≥ 1` on non-empty input). -/
def tmplStep (ngroups : Nat) : Str → Except PyExn (TmplPiece × Nat)
  | [] => .ok (.lit [], 1)
  | '\\' :: rest =>
    match rest with
    | [] => .error .badEscape
    | 'g' :: r =>
      match parseGroupName ngroups r with
      | .error e => .error e
      | .ok (i, k) => .ok (.group i, 2 + k)
    | '0' :: r =>
      let o := (r.take 2).takeWhile isOctDigit
      let v := o.foldl (fun n c => n * 8 + (c.toNat - 48)) 0
      .ok (.lit [Char.ofNat v], 2 + o.length)
    | d1 :: r =>
      if isAsciiDigit d1 then
        match r with
        | d2 :: r2 =>
          if isAsciiDigit d2 then
            match r2 with
            | d3 :: _ =>
              if isOctDigit d1 && isOctDigit d2 && isOctDigit d3 then
                let v := ((d1.toNat - 48) * 8 + (d2.toNat - 48)) * 8 + (d3.toNat - 48)
                if v > 255 then .error .octalOutOfRange
                else .ok (.lit [Char.ofNat v], 4)
              else
                let i := (d1.toNat - 48) * 10 + (d2.toNat - 48)
                if i > ngroups then .error .invalidGroupRef else .ok (.group i, 3)
            | [] =>
              let i := (d1.toNat - 48) * 10 + (d2.toNat - 48)
              if i > ngroups then .error .invalidGroupRef else .ok (.group i, 3)
          else
            let i := d1.toNat - 48
            if i > ngroups then .error .invalidGroupRef else .ok (.group i, 2)
        | [] =>
          let i := d1.toNat - 48
          if i > ngroups then .error .invalidGroupRef else .ok (.group i, 2)
      else if d1 = '\\' then .ok (.lit ['\\'], 2)
      else if d1 = 'a' then .ok (.lit ['\x07'], 2)
      else if d1 = 'b' then .ok (.lit ['\x08'], 2)
      else if d1 = 'f' then .ok (.lit ['\x0c'], 2)
      else if d1 = 'n' then .ok (.lit ['\n'], 2)
      else if d1 = 'r' then .ok (.lit ['\x0d'], 2)
      else if d1 = 't' then .ok (.lit ['\t'], 2)
      else if d1 = 'v' then .ok (.lit ['\x0b'], 2)
      else if isAsciiLetter d1 then .error .badEscape
      else .ok (.lit ['\\', d1], 2)
  | c :: _ => .ok (.lit [c], 1)

/-- `sre_parse.parse_template` specialized to string templates over a
    pattern with `ngroups` capture groups (fuel: each step consumes at least
    one character). -/
def parseTemplateGo (ngroups : Nat) : Nat → Str → Except PyExn (List TmplPiece)
  | _, [] => .ok []
  | 0, _ => .ok []
  | fuel + 1, c :: r =>
    match tmplStep ngroups (c :: r) with
    | .error e => .error e
    | .ok (p, k) =>
      match parseTemplateGo ngroups fuel (r.drop (k - 1)) with
      | .ok ps => .ok (p :: ps)
      | .error e => .error e

def parseTemplate (ngroups : Nat) (s : Str) : Except PyExn (List TmplPiece) :=
  parseTemplateGo ngroups s.length s

/-- Expand a parsed template at a match (`whole` is group 0, `g1` group 1). -/
def expandTemplate (pieces : List TmplPiece) (whole g1 : Str) : Str :=
  catMap (fun p =>
    match p with
    | .lit s => s
    | .group 0 => whole
    | .group _ => g1) pieces

/-- Try to match `URI="([^"]+)"` at the head of `s`; returns group 1.  The
    whole match has length `6 + group.length`. -/
def uriMatchHead (s : Str) : Option Str :=
  if (pyS "URI=\"").isPrefixOf s then
    let t := s.drop 5
    let g := t.takeWhile (· ≠ '"')
    if !g.isEmpty && (t.drop g.length).headD ' ' = '"' then some g else none
  else none

/-- `re.search(r'URI="([^\"]+)"', s)`: group 1 of the leftmost match. -/
def reSearchURI : Str → Option Str
  | [] => none
  | c :: r =>
    match uriMatchHead (c :: r) with
    | some g => some g
    | none => reSearchURI r

/-- `re.sub` replacement worker (fuel: each step consumes at least one
    character). -/
def reSubGo (pieces : List TmplPiece) : Nat → Str → Str
  | _, [] => []
  | 0, s => s
  | fuel + 1, c :: r =>
    match uriMatchHead (c :: r) with
    | some g =>
      expandTemplate pieces (pyS "URI=\"" ++ g ++ ['"']) g ++
        reSubGo pieces fuel ((c :: r).drop (6 + g.length))
    | none => c :: reSubGo pieces fuel r

/-- `re.sub` replacement of every non-overlapping `URI="([^"]+)"` match by
    the expansion of `pieces`. -/
def reSubURIAll (pieces : List TmplPiece) (s : Str) : Str := reSubGo pieces s.length s

/-- `re.sub(r'URI="([^\"]+)"', 'URI="' + new_uri + '"', line)`: parse the
    replacement template (which may raise), then substitute all matches. -/
def reSubURI (new_uri : Str) (line : Str) : Except PyExn Str :=
  match parseTemplate 1 (pyS "URI=\"" ++ new_uri ++ ['"']) with
  | .error e => .error e
  | .ok pieces => .ok (reSubURIAll pieces line)

/-! ## StripChat key store (`_FALLBACK_KEYS`, `_loadMouflonKeys`,
`getMouflonDecKey`) -/

/-- `StripChat._FALLBACK_KEYS` (hardcoded fallback pkey→pdkey pairs). -/
def FALLBACK_KEYS : List (Str × Str) :=
  [(pyS "Ook7quaiNgiyuhai", pyS "$iPRUU0AnxoOSif9"),
   (pyS "Zeechoej4aleeshi", pyS "ubahjae7goPoodi6")]

/-- The class-level key-store state: `_keys_loaded` and `_mouflon_keys`. -/
structure KeyState where
  keysLoaded : Bool
  mouflonKeys : Option (List (Str × Str))

/-- One step of the fallback-merge loop of `_loadMouflonKeys`
    (`if k not in cls._mouflon_keys: cls._mouflon_keys[k] = v`). -/
def fbStep (m : List (Str × Str)) (kv : Str × Str) : List (Str × Str) :=
  if dHas m kv.1 then m else dSet m kv.1 kv.2

/-- One step of the Format-B config loop of `_loadMouflonKeys`
    (keep entries whose key and value both have length `≥ 12`). -/
def cfgStep (m : List (Str × Str)) (kv : Str × Str) : List (Str × Str) :=
  if 12 ≤ kv.1.length && 12 ≤ kv.2.length then dSet m kv.1 kv.2 else m

/-- `StripChat._loadMouflonKeys()`.  `config` is the parsed JSON dict of
    `mouflon_keys.json` as string pairs in file order (`none` when the file
    is missing, unreadable, malformed, or not a dict — all those sources
    contribute nothing).  Format A (`pkey`/`pdkey` keys both present) stores
    the single pair; otherwise Format B keeps entries whose key and value
    both have length ≥ 12.  Fallback keys are added only when absent. -/
def loadMouflonKeys (st : KeyState) (config : Option (List (Str × Str))) : KeyState :=
  if st.keysLoaded then st
  else
    let m0 := st.mouflonKeys.getD []
    let m1 :=
      match config with
      | none => m0
      | some data =>
        match dGet data (pyS "pkey"), dGet data (pyS "pdkey") with
        | some pk, some pd => dSet m0 pk pd
        | _, _ => data.foldl cfgStep m0
    let m2 := FALLBACK_KEYS.foldl fbStep m1
    ⟨true, some m2⟩

/-- The contribution of the configuration file inside `_loadMouflonKeys`
    starting from an empty store (`m1` when `_mouflon_keys` starts `None`). -/
def cfgMerge (config : Option (List (Str × Str))) : List (Str × Str) :=
  match config with
  | none => []
  | some data =>
    match dGet data (pyS "pkey"), dGet data (pyS "pdkey") with
    | some pk, some pd => dSet [] pk pd
    | _, _ => data.foldl cfgStep []

/-- `StripChat.getMouflonDecKey(pkey)` over a loaded key dict: exact lookup,
    else the first non-fallback key's value, else the first key's value,
    else `None` when the dict is empty or `pkey` is falsy. -/
def getMouflonDecKey (keys : List (Str × Str)) (pkey : Str) : Option Str :=
  if pkey.isEmpty then none
  else
    match dGet keys pkey with
    | some v => some v
    | none =>
      match keys.find? (fun kv => !dHas FALLBACK_KEYS kv.1) with
      | some kv => some kv.2
      | none =>
        match keys with
        | [] => none
        | k0 :: _ => some ((dGet keys k0.1).getD k0.2)

/-! ## `_getMouflonFromM3U` and `m3u_decoder` -/

/-- `StripChat._getMouflonFromM3U(m3u8_doc)`: locate `#EXT-X-MOUFLON:`, take
    the text up to the next newline (Python's `find` returns `-1` at
    end-of-document, so the slice `[start:-1]` then drops the final
    character), strip it, split on `:`; with at least four fields, field 3
    is `psch` and field 4 is `pkey`. -/
def getMouflonFromM3U (doc : Str) : Option Str × Option Str :=
  match findSub doc (pyS "#EXT-X-MOUFLON:") with
  | none => (none, none)
  | some start =>
    let stop :=
      match findSubFrom doc ['\n'] start with
      | some j => j
      | none => doc.length - 1
    let seg := pyStrip (pySlice doc start stop)
    let parts := splitOnChar ':' seg
    if 4 ≤ parts.length then (some (parts.getD 2 []), some (parts.getD 3 []))
    else (none, none)

/-- The delivery-edge recognition test of `_append_params`:
    `'doppiocdn.com' in p.netloc or 'doppiocdn.net' in p.netloc or
    'doppiocdn.org' in p.netloc`. -/
def recognizedNetloc (n : Str) : Bool :=
  strIn (pyS "doppiocdn.com") n || strIn (pyS "doppiocdn.net") n ||
  strIn (pyS "doppiocdn.org") n

/-- The query-dict update of `_append_params`: add `psch` and `pkey` only
    when truthy and not already present; the Boolean is `changed`. -/
def appendParamsQ (psch pkey : Option Str) (q : List (Str × List Str)) :
    List (Str × List Str) × Bool :=
  let s1 : List (Str × List Str) × Bool :=
    if pyTruthyO psch && !dHas q (pyS "psch") then
      (q ++ [(pyS "psch", [psch.getD []])], true)
    else (q, false)
  if pyTruthyO pkey && !dHas s1.1 (pyS "pkey") then
    (s1.1 ++ [(pyS "pkey", [pkey.getD []])], true)
  else s1

/-- The body of `_append_params(url)` before its `except Exception` handler:
    split the URL (may raise `ValueError`), pass through unrecognized
    netlocs, otherwise parse the query, add missing `psch`/`pkey`, re-encode
    the first value of each parameter and re-assemble. -/
def appendParamsTry (psch pkey : Option Str) (url : Str) : Except Unit Str :=
  match pyUrlsplit url with
  | .error e => .error e
  | .ok p =>
    if !recognizedNetloc p.netloc then .ok url
    else
      let q := parseQs p.query
      let qc := appendParamsQ psch pkey q
      if !qc.2 then .ok url
      else
        let new_q := pyUrlencode (qc.1.map (fun kv => (kv.1, kv.2.headD [])))
        .ok (pyUrlunsplit ⟨p.scheme, p.netloc, p.path, new_q, p.fragment⟩)

/-- `_append_params(url)`: any exception inside the body yields the URL
    unchanged. -/
def append_params (psch pkey : Option Str) (url : Str) : Str :=
  match appendParamsTry psch pkey url with
  | .ok r => r
  | .error _ => url

/-- The prefix `#EXT-X-MOUFLON:FILE:`. -/
def mouflonFileAttr : Str := pyS "#EXT-X-MOUFLON:FILE:"

/-- The placeholder filename `media.mp4`. -/
def mouflonFilename : Str := pyS "media.mp4"

/-- The `for line in lines` loop of `m3u_decoder`, with `decoded` as the
    accumulator and `last_decoded_file` as the carried state.  A raise from
    `re.sub` template parsing in the `#EXT-X-MAP:`/`#EXT-X-PART:` branches
    propagates (it is outside any `try`); `_decode` failures are caught per
    line. -/
def m3uLoop (psch pkey pdkey : Option Str) : List Str → Option Str → Str →
    Except PyExn Str
  | [], _, acc => .ok acc
  | line :: rest, pending, acc =>
    if mouflonFileAttr.isPrefixOf line then
      let pending' :=
        if pyTruthyO pkey && pyTruthyO pdkey then
          match mouflonDecode (line.drop mouflonFileAttr.length) (pdkey.getD []) with
          | .ok s => some s
          | .error _ => none
        else none
      m3uLoop psch pkey pdkey rest pending' acc
    else if mouflonFilename.isSuffixOf line && pyTruthyO pending then
      let replaced := replaceAll line mouflonFilename (pending.getD [])
      m3uLoop psch pkey pdkey rest none
        (acc ++ append_params psch pkey replaced ++ ['\n'])
    else if (pyS "#EXT-X-MAP:").isPrefixOf line then
      match reSearchURI line with
      | some g =>
        match reSubURI (append_params psch pkey g) line with
        | .ok line2 => m3uLoop psch pkey pdkey rest pending (acc ++ line2 ++ ['\n'])
        | .error e => .error e
      | none => m3uLoop psch pkey pdkey rest pending (acc ++ line ++ ['\n'])
    else if (pyS "#EXT-X-PART:").isPrefixOf line then
      match reSearchURI line with
      | some g =>
        match reSubURI (append_params psch pkey g) line with
        | .ok line2 => m3uLoop psch pkey pdkey rest pending (acc ++ line2 ++ ['\n'])
        | .error e => .error e
      | none => m3uLoop psch pkey pdkey rest pending (acc ++ line ++ ['\n'])
    else if (pyS "http://").isPrefixOf line || (pyS "https://").isPrefixOf line then
      m3uLoop psch pkey pdkey rest pending (acc ++ append_params psch pkey line ++ ['\n'])
    else
      m3uLoop psch pkey pdkey rest pending (acc ++ line ++ ['\n'])

/-- `StripChat.m3u_decoder(content)` over a loaded key dict `keys`
    (`cls._mouflon_keys` after `_loadMouflonKeys`): extract `psch`/`pkey`
    from the playlist, default `psch` to `v1`, resolve `pdkey`, then process
    the lines.  The result is the decoded document; `.error` is an uncaught
    exception escaping `m3u_decoder`. -/
def m3u_decoder (keys : List (Str × Str)) (content : Str) : Except PyExn Str :=
  let pq := getMouflonFromM3U content
  let pkey := pq.2
  let psch := if !pyTruthyO pq.1 && pyTruthyO pkey then some (pyS "v1") else pq.1
  let pdkey := if pyTruthyO pkey then getMouflonDecKey keys (pkey.getD []) else none
  m3uLoop psch pkey pdkey (pySplitlines content) none []

/-! ## Specification-side definitions -/

/-- Modelled from the spec: `encode` is the inverse-direction obfuscation,
    XOR-ing the byte payload with the same cyclically repeated SHA-256 mask
    of the decode key that `_decode` uses (`§8`: "`encode` XORs with the
    same cyclical mask derivation used by `decode`"). -/
def mouflonEncode (data : List Nat) (key : Str) : List Nat :=
  xorCycle data (mouflonMask key)

/-- The fresh class state before any load (`_keys_loaded = False`,
    `_mouflon_keys = None`). -/
def freshKeyState : KeyState := ⟨false, none⟩

/-- Join lines with a trailing `'\n'` after each (the shape `m3u_decoder`
    produces: `decoded += line + '\n'`). -/
def joinNL (ls : List Str) : Str := catMap (fun l => l ++ ['\n']) ls

/-- Modelled from the spec: the per-line frame of `m3u_decoder`'s output.
    `none` records a removed line, allowed only for `#EXT-X-MOUFLON:FILE:`
    key-directive lines; a kept line is either unchanged or one of the
    allowed edits: query-parameter augmentation of a URI line, the
    `URI="..."` rewrite of a `#EXT-X-MAP:`/`#EXT-X-PART:` attribute line,
    or the placeholder-filename replacement (by some decoded name `d`)
    followed by augmentation. -/
def allowedEdit (psch pkey : Option Str) (line : Str) : Option Str → Prop
  | none => mouflonFileAttr.isPrefixOf line = true
  | some l2 =>
      l2 = line ∨
      l2 = append_params psch pkey line ∨
      (∃ g, reSearchURI line = some g ∧
        reSubURI (append_params psch pkey g) line = .ok l2) ∨
      (∃ d, l2 = append_params psch pkey (replaceAll line mouflonFilename d))

/-! ## Helper lemmas -/

theorem catMap_length_w4 (x : Nat) : (w4 x).length = 4 := rfl

theorem sha256_length (msg : List Nat) : (sha256 msg).length = 32 := by
  simp [sha256, w4]

theorem sha256_ne_nil (msg : List Nat) : sha256 msg ≠ [] := by
  intro h
  have := sha256_length msg
  rw [h] at this
  simp at this

theorem cycleTake_length {mask : List Nat} (h : mask ≠ []) (n : Nat) :
    (cycleTake mask n).length = n := by
  simp [cycleTake, h]

theorem zip_xor_cancel :
    ∀ (data m : List Nat), m.length = data.length →
      List.zipWith Nat.xor (List.zipWith Nat.xor data m) m = data := by
  intro data
  induction data with
  | nil => intro m _; simp
  | cons d ds ih =>
    intro m hm
    cases m with
    | nil => simp at hm
    | cons c cs =>
      simp only [List.length_cons, Nat.succ.injEq] at hm
      simp only [List.zipWith_cons_cons, ih cs hm, List.cons.injEq, and_true]
      exact Nat.xor_cancel_right c d

theorem xorCycle_length {mask : List Nat} (h : mask ≠ []) (data : List Nat) :
    (xorCycle data mask).length = data.length := by
  simp [xorCycle, cycleTake_length h]

/-- C1 -- For every decode key `K` and every byte payload `P`, applying the
    XOR stage of `_decode` (XOR with the cyclically repeated SHA-256 mask of
    `K`) to `encode P K` gives back `P`:
    `decode(encode(P, K), K) == P`. -/
theorem mouflon_xor_roundtrip (key : Str) (data : List Nat) :
    xorCycle (mouflonEncode data key) (mouflonMask key) = data := by
  have hne : mouflonMask key ≠ [] := sha256_ne_nil _
  have hlen : (mouflonEncode data key).length = data.length :=
    xorCycle_length hne data
  unfold mouflonEncode xorCycle at *
  rw [hlen]
  exact zip_xor_cancel data _ (cycleTake_length hne _)

/-! ### Dict lemmas -/

theorem dGet_nil (k : Str) : dGet ([] : List (Str × α)) k = none := rfl

theorem dGet_cons (kv : Str × α) (d : List (Str × α)) (k : Str) :
    dGet (kv :: d) k = if kv.1 = k then some kv.2 else dGet d k := by
  by_cases h : kv.1 = k
  · simp [dGet, List.find?, h]
  · simp [dGet, List.find?, h]

theorem dGet_dSet_self (d : List (Str × α)) (k : Str) (v : α) :
    dGet (dSet d k v) k = some v := by
  induction d with
  | nil => simp [dSet, dGet_cons]
  | cons kv rest ih =>
    by_cases h : kv.1 = k
    · simp [dSet, h, dGet_cons]
    · simp [dSet, h, dGet_cons, ih]

theorem dGet_dSet_ne (d : List (Str × α)) (k k' : Str) (v : α) (h : k' ≠ k) :
    dGet (dSet d k v) k' = dGet d k' := by
  induction d with
  | nil => simp [dSet, dGet_cons, dGet_nil, Ne.symm h]
  | cons kv rest ih =>
    by_cases hk : kv.1 = k
    · rw [dSet, if_pos hk, dGet_cons, dGet_cons, hk]
      simp [Ne.symm h]
    · rw [dSet, if_neg hk, dGet_cons, dGet_cons, ih]

theorem dSet_keys (d : List (Str × α)) (k : Str) (v : α) :
    (dSet d k v).map Prod.fst =
      if k ∈ d.map Prod.fst then d.map Prod.fst else d.map Prod.fst ++ [k] := by
  induction d with
  | nil => rw [dSet]; rw [if_neg (by simp)]; rfl
  | cons kv rest ih =>
    by_cases h : kv.1 = k
    · have hmem : k ∈ (kv :: rest).map Prod.fst := by
        rw [List.map_cons, ← h]
        exact List.mem_cons_self _ _
      rw [dSet, if_pos h, if_pos hmem, List.map_cons, List.map_cons, h]
    · rw [dSet, if_neg h, List.map_cons, List.map_cons, ih]
      by_cases hm : k ∈ rest.map Prod.fst
      · rw [if_pos hm, if_pos (List.mem_cons_of_mem _ hm)]
      · rw [if_neg hm, if_neg (by
          intro hc
          rcases List.mem_cons.mp hc with hc | hc
          · exact h hc.symm
          · exact hm hc)]
        rw [List.cons_append]

theorem dSet_nodup (d : List (Str × α)) (k : Str) (v : α)
    (h : (d.map Prod.fst).Nodup) : ((dSet d k v).map Prod.fst).Nodup := by
  rw [dSet_keys]
  by_cases hm : k ∈ d.map Prod.fst
  · rw [if_pos hm]; exact h
  · rw [if_neg hm, List.nodup_append]
    refine ⟨h, List.nodup_singleton k, ?_⟩
    intro a ha hak
    have : a = k := by simpa using hak
    exact hm (this ▸ ha)

theorem dHas_iff_mem_keys {d : List (Str × α)} {k : Str} :
    dHas d k = true ↔ k ∈ d.map Prod.fst := by
  induction d with
  | nil => rw [dHas, dGet_nil]; simp
  | cons kv rest ih =>
    rw [dHas, dGet_cons]
    by_cases h : kv.1 = k
    · rw [if_pos h, List.map_cons]
      constructor
      · intro _
        rw [← h]
        exact List.mem_cons_self _ _
      · intro _
        rfl
    · rw [if_neg h, List.map_cons]
      rw [dHas] at ih
      simp only [List.mem_cons, ih]
      constructor
      · exact Or.inr
      · rintro (hc | hc)
        · exact absurd hc.symm h
        · exact hc

/-- C4 -- For every non-empty key-id, `getMouflonDecKey` returns `None` if
    and only if the merged key set is empty, and returns the exact match
    whenever the key-id is present. -/
theorem getMouflonDecKey_resolution (keys : List (Str × Str)) (pkey : Str)
    (h : pkey ≠ []) :
    (getMouflonDecKey keys pkey = none ↔ keys = [])
    ∧ (∀ v, dGet keys pkey = some v → getMouflonDecKey keys pkey = some v) := by
  have hne : pkey.isEmpty = false := by simpa using h
  constructor
  · rw [getMouflonDecKey.eq_def, hne]
    simp only [Bool.false_eq_true, if_false]
    cases hd : dGet keys pkey with
    | some v =>
      simp only [Option.some_ne_none, false_iff]
      intro hk
      subst hk
      rw [dGet_nil] at hd
      cases hd
    | none =>
      cases hf : keys.find? (fun kv => !dHas FALLBACK_KEYS kv.1) with
      | some kv =>
        simp only [Option.some_ne_none, false_iff]
        intro hk
        subst hk
        simp [List.find?] at hf
      | none =>
        cases keys with
        | nil => simp
        | cons k0 ks => simp
  · intro v hv
    rw [getMouflonDecKey.eq_def, hne]
    simp only [Bool.false_eq_true, if_false]
    rw [hv]

/-- Witness for C4 at a concrete store and key-id. -/
theorem getMouflonDecKey_resolution_witness :
    getMouflonDecKey FALLBACK_KEYS (pyS "Ook7quaiNgiyuhai") =
      some (pyS "$iPRUU0AnxoOSif9") :=
  (getMouflonDecKey_resolution FALLBACK_KEYS (pyS "Ook7quaiNgiyuhai")
    (by decide)).2 (pyS "$iPRUU0AnxoOSif9") (by decide)

/-! ### Fold lemmas for the key-store load -/

theorem fbFold_preserves (fb : List (Str × Str)) :
    ∀ (m : List (Str × Str)) (k : Str), dHas m k = true →
      dGet (fb.foldl fbStep m) k = dGet m k := by
  induction fb with
  | nil => intro m k _; rfl
  | cons kv fbr ih =>
    intro m k hk
    rw [List.foldl_cons]
    by_cases hkv : dHas m kv.1
    · rw [show fbStep m kv = m from by rw [fbStep, if_pos hkv]]
      exact ih m k hk
    · have hne : k ≠ kv.1 := by
        intro he
        rw [he] at hk
        exact hkv hk
      have hstep : fbStep m kv = dSet m kv.1 kv.2 := by
        rw [fbStep, if_neg hkv]
      rw [hstep]
      have hk2 : dHas (dSet m kv.1 kv.2) k = true := by
        rw [dHas, dGet_dSet_ne _ _ _ _ hne]
        exact hk
      rw [ih _ _ hk2, dGet_dSet_ne _ _ _ _ hne]

theorem fbFold_nodup (fb : List (Str × Str)) :
    ∀ (m : List (Str × Str)), (m.map Prod.fst).Nodup →
      ((fb.foldl fbStep m).map Prod.fst).Nodup := by
  induction fb with
  | nil => intro m hm; exact hm
  | cons kv fbr ih =>
    intro m hm
    rw [List.foldl_cons]
    apply ih
    rw [fbStep]
    by_cases hkv : dHas m kv.1
    · rw [if_pos hkv]; exact hm
    · rw [if_neg hkv]; exact dSet_nodup _ _ _ hm

theorem cfgFold_preserves_notin (d : List (Str × Str)) :
    ∀ (m : List (Str × Str)) (k : Str), k ∉ d.map Prod.fst →
      dGet (d.foldl cfgStep m) k = dGet m k := by
  induction d with
  | nil => intro m k _; rfl
  | cons kv dr ih =>
    intro m k hk
    rw [List.map_cons, List.mem_cons] at hk
    push_neg at hk
    rw [List.foldl_cons]
    rw [ih _ _ hk.2, cfgStep]
    by_cases hc : 12 ≤ kv.1.length && 12 ≤ kv.2.length
    · rw [if_pos hc, dGet_dSet_ne _ _ _ _ hk.1]
    · rw [if_neg hc]

theorem cfgFold_get (d : List (Str × Str)) :
    ∀ (m : List (Str × Str)) (k : Str) (v : Str), (d.map Prod.fst).Nodup →
      (k, v) ∈ d → 12 ≤ k.length → 12 ≤ v.length →
      dGet (d.foldl cfgStep m) k = some v := by
  induction d with
  | nil => intro m k v _ hmem; cases hmem
  | cons kv dr ih =>
    intro m k v hnd hmem hkl hvl
    rw [List.map_cons, List.nodup_cons] at hnd
    rw [List.foldl_cons]
    rcases List.mem_cons.mp hmem with heq | hmem2
    · have hk1 : kv.1 = k := by rw [← heq]
      have hk2 : kv.2 = v := by rw [← heq]
      have hnotin : k ∉ dr.map Prod.fst := hk1 ▸ hnd.1
      rw [cfgFold_preserves_notin dr _ _ hnotin, cfgStep,
        if_pos (by rw [hk1, hk2]; simp [hkl, hvl]), hk1, hk2,
        dGet_dSet_self]
    · exact ih _ _ _ hnd.2 hmem2 hkl hvl

theorem cfgFold_nodup (d : List (Str × Str)) :
    ∀ (m : List (Str × Str)), (m.map Prod.fst).Nodup →
      ((d.foldl cfgStep m).map Prod.fst).Nodup := by
  induction d with
  | nil => intro m hm; exact hm
  | cons kv dr ih =>
    intro m hm
    rw [List.foldl_cons]
    apply ih
    rw [cfgStep]
    by_cases hc : 12 ≤ kv.1.length && 12 ≤ kv.2.length
    · rw [if_pos hc]; exact dSet_nodup _ _ _ hm
    · rw [if_neg hc]
      exact hm

/-- On a fresh state, `_loadMouflonKeys` produces the fallback-fold over the
    config contribution. -/
theorem loadMouflonKeys_fresh (config : Option (List (Str × Str))) :
    loadMouflonKeys freshKeyState config =
      ⟨true, some (FALLBACK_KEYS.foldl fbStep (cfgMerge config))⟩ := by
  cases config with
  | none => rfl
  | some data => rfl

/-- C8 -- After `_loadMouflonKeys` runs on a fresh state: each key-id maps
    to at most one decode key (no duplicate keys in the merged dict);
    operator-config entries take precedence over the built-in fallback
    table (a config-contributed pair is what the merged store returns, in
    both accepted config shapes); and repeating the load changes nothing. -/
theorem loadMouflonKeys_merge (config : Option (List (Str × Str)))
    (hnd : ∀ d, config = some d → (d.map Prod.fst).Nodup) :
    (((loadMouflonKeys freshKeyState config).mouflonKeys.getD []).map Prod.fst).Nodup
    ∧ (∀ d pk pd, config = some d → dGet d (pyS "pkey") = some pk →
        dGet d (pyS "pdkey") = some pd →
        dGet ((loadMouflonKeys freshKeyState config).mouflonKeys.getD []) pk = some pd)
    ∧ (∀ d k v, config = some d →
        (dGet d (pyS "pkey") = none ∨ dGet d (pyS "pdkey") = none) →
        (k, v) ∈ d → 12 ≤ k.length → 12 ≤ v.length →
        dGet ((loadMouflonKeys freshKeyState config).mouflonKeys.getD []) k = some v)
    ∧ (∀ config2, loadMouflonKeys (loadMouflonKeys freshKeyState config) config2 =
        loadMouflonKeys freshKeyState config) := by
  have hget : (loadMouflonKeys freshKeyState config).mouflonKeys.getD [] =
      FALLBACK_KEYS.foldl fbStep (cfgMerge config) := by
    rw [loadMouflonKeys_fresh]
    rfl
  refine ⟨?_, ?_, ?_, ?_⟩
  · rw [hget]
    apply fbFold_nodup
    cases config with
    | none => simp [cfgMerge]
    | some data =>
      rw [cfgMerge]
      cases hpk : dGet data (pyS "pkey") with
      | some pk =>
        cases hpd : dGet data (pyS "pdkey") with
        | some pd => simp [dSet]
        | none => exact cfgFold_nodup data [] (by simp)
      | none => exact cfgFold_nodup data [] (by simp)
  · intro d pk pd hc hpk hpd
    subst hc
    rw [hget, cfgMerge, hpk, hpd]
    have hhas : dHas (dSet ([] : List (Str × Str)) pk pd) pk = true := by
      rw [dHas, dGet_dSet_self]
      rfl
    rw [fbFold_preserves _ _ _ hhas, dGet_dSet_self]
  · intro d k v hc hAB hmem hkl hvl
    subst hc
    rw [hget]
    have hg : dGet (d.foldl cfgStep []) k = some v :=
      cfgFold_get d [] k v (hnd d rfl) hmem hkl hvl
    have hhas : dHas (d.foldl cfgStep []) k = true := by
      rw [dHas, hg]
      rfl
    have hB : cfgMerge (some d) = d.foldl cfgStep [] := by
      rw [cfgMerge]
      rcases hAB with hA | hA
      · rw [hA]
      · rw [hA]
        cases dGet d (pyS "pkey") <;> rfl
    rw [hB, fbFold_preserves _ _ _ hhas, hg]
  · intro config2
    rw [loadMouflonKeys_fresh]
    rfl

/-- Witness for C8 at a concrete operator configuration overriding a
    fallback pkey. -/
theorem loadMouflonKeys_merge_witness :
    dGet ((loadMouflonKeys freshKeyState
        (some [(pyS "Zeechoej4aleeshi", pyS "OperatorKey12345")])).mouflonKeys.getD [])
      (pyS "Zeechoej4aleeshi") = some (pyS "OperatorKey12345") :=
  (loadMouflonKeys_merge (some [(pyS "Zeechoej4aleeshi", pyS "OperatorKey12345")])
    (by intro d hd; cases hd; decide)).2.2.1
    [(pyS "Zeechoej4aleeshi", pyS "OperatorKey12345")]
    (pyS "Zeechoej4aleeshi") (pyS "OperatorKey12345") rfl
    (Or.inl (by decide)) (by decide) (by decide) (by decide)

/-! ### `_decode` error kinds (C7) -/

/-- C7 -- the two failure stages of `_decode` surface as distinct error
    kinds: a base64 failure keeps its `ValueError`/`binascii.Error` kind
    (never the UTF-8 kind), and a UTF-8 failure after a successful base64
    decode is `UnicodeDecodeError`; the kinds are distinguishable. -/
theorem mouflonDecode_error_kinds (payload key : Str) :
    (∀ e, pyB64Decode (payload ++ pyS "==") = .error e →
        mouflonDecode payload key = .error e ∧ e ≠ DecodeErr.unicodeDecodeError)
    ∧ (∀ data, pyB64Decode (payload ++ pyS "==") = .ok data →
        (utf8DecodeStrict (xorCycle data (mouflonMask key))).isOk = false →
        mouflonDecode payload key = .error DecodeErr.unicodeDecodeError)
    ∧ DecodeErr.binasciiError ≠ DecodeErr.unicodeDecodeError := by
  refine ⟨?_, ?_, by decide⟩
  · intro e he
    constructor
    · rw [mouflonDecode, he]
    · revert he
      rw [pyB64Decode]
      by_cases ha : (payload ++ pyS "==").all (fun c => c.toNat < 128)
      · rw [if_pos ha]
        cases a2bBase64 (payload ++ pyS "==") with
        | ok bs => intro hc; cases hc
        | error u =>
          intro hc
          cases hc
          decide
      · rw [if_neg ha]
        intro hc
        cases hc
        decide
  · intro data hd hu
    rw [mouflonDecode, hd]
    cases hs : utf8DecodeStrict (xorCycle data (mouflonMask key)) with
    | ok s =>
      rw [hs] at hu
      cases hu
    | error u =>
      change (match utf8DecodeStrict (xorCycle data (mouflonMask key)) with
              | Except.ok s => (Except.ok s : Except DecodeErr Str)
              | Except.error _ => Except.error DecodeErr.unicodeDecodeError) =
          Except.error DecodeErr.unicodeDecodeError
      rw [hs]

/-- Witness for C7: a malformed payload keeps the base64 error kind, a
    payload whose XOR image is not UTF-8 gets the UTF-8 kind. -/
theorem mouflonDecode_error_kinds_witness :
    mouflonDecode (pyS "A") (pyS "ubahjae7goPoodi6") = .error DecodeErr.binasciiError
    ∧ mouflonDecode (pyS "mA") (pyS "ubahjae7goPoodi6") =
        .error DecodeErr.unicodeDecodeError :=
  ⟨((mouflonDecode_error_kinds (pyS "A") (pyS "ubahjae7goPoodi6")).1
      DecodeErr.binasciiError (by decide)).1,
   (mouflonDecode_error_kinds (pyS "mA") (pyS "ubahjae7goPoodi6")).2.1
      [152] (by decide) (by decide)⟩

/-! ### Fixed two-character padding (C6) -/

theorem b64Val_ascii {c : Char} (h : (b64Val c).isSome = true) : c.toNat < 128 := by
  unfold b64Val at h
  split_ifs at h with h1 h2 h3 h4 h5
  · simp only [Bool.and_eq_true, decide_eq_true_eq] at h1
    have hle : c.val.toNat ≤ ('Z').val.toNat := h1.2
    have hz : ('Z').val.toNat = 90 := rfl
    change c.val.toNat < 128
    omega
  · simp only [Bool.and_eq_true, decide_eq_true_eq] at h2
    have hle : c.val.toNat ≤ ('z').val.toNat := h2.2
    have hz : ('z').val.toNat = 122 := rfl
    change c.val.toNat < 128
    omega
  · simp only [Bool.and_eq_true, decide_eq_true_eq] at h3
    have hle : c.val.toNat ≤ ('9').val.toNat := h3.2
    have hz : ('9').val.toNat = 57 := rfl
    change c.val.toNat < 128
    omega
  · subst h4
    decide
  · subst h5
    decide
  · cases h

/-- Running the non-strict base64 scanner over a run of alphabet characters
    from a live state: it stays live, advances `quadPos` by the run length
    modulo 4, and ends with a zero pad count (unless the run is empty). -/
theorem b64_alpha_run (payload : Str) :
    ∀ st : B64State, (∀ c ∈ payload, (b64Val c).isSome = true) →
      st.done = false → st.quadPos < 4 →
      ((payload.foldl b64Step st).done = false ∧
       (payload.foldl b64Step st).quadPos = (st.quadPos + payload.length) % 4 ∧
       (payload.foldl b64Step st).pads = (if payload.isEmpty then st.pads else 0)) := by
  induction payload with
  | nil =>
    intro st _ hdn hqp
    refine ⟨hdn, ?_, rfl⟩
    simp [Nat.mod_eq_of_lt hqp]
  | cons c r ih =>
    intro st hall hdn hqp
    have hc : (b64Val c).isSome = true := hall c (List.mem_cons_self c r)
    obtain ⟨v, hv⟩ := Option.isSome_iff_exists.mp hc
    have hceq : c ≠ '=' := by
      intro he
      rw [he] at hv
      cases hv
    have hstep : b64Step st c =
        (match st.quadPos with
         | 0 => ⟨1, v, 0, false, st.out⟩
         | 1 => ⟨2, v % 16, 0, false, st.out ++ [st.leftchar * 4 + v / 16]⟩
         | 2 => ⟨3, v % 4, 0, false, st.out ++ [st.leftchar * 16 + v / 4]⟩
         | _ => ⟨0, 0, 0, false, st.out ++ [st.leftchar * 64 + v]⟩ : B64State) := by
      rw [b64Step, if_neg (by rw [hdn]; exact Bool.false_ne_true), if_neg hceq, hv]
    have hqp4 : st.quadPos = 0 ∨ st.quadPos = 1 ∨ st.quadPos = 2 ∨ st.quadPos = 3 := by
      omega
    rw [List.foldl_cons]
    have key : (b64Step st c).done = false ∧
        (b64Step st c).quadPos = (st.quadPos + 1) % 4 ∧
        (b64Step st c).quadPos < 4 ∧ (b64Step st c).pads = 0 := by
      rcases hqp4 with h0 | h1 | h2 | h3
      · rw [hstep, h0]
        refine ⟨rfl, rfl, ?_, rfl⟩
        show (1 : Nat) < 4
        omega
      · rw [hstep, h1]
        refine ⟨rfl, rfl, ?_, rfl⟩
        show (2 : Nat) < 4
        omega
      · rw [hstep, h2]
        refine ⟨rfl, rfl, ?_, rfl⟩
        show (3 : Nat) < 4
        omega
      · rw [hstep, h3]
        refine ⟨rfl, rfl, ?_, rfl⟩
        show (0 : Nat) < 4
        omega
    obtain ⟨k1, k2, k3, k4⟩ := key
    have ihr := ih (b64Step st c) (fun x hx => hall x (List.mem_cons_of_mem c hx)) k1 k3
    refine ⟨ihr.1, ?_, ?_⟩
    · rw [ihr.2.1, k2, List.length_cons, Nat.mod_add_mod]
      congr 1
      omega
    · rw [ihr.2.2]
      cases r with
      | nil => simp [k4]
      | cons x xs => simp

/-- C6 (amended) -- `_decode` always appends exactly two `=` characters,
    independent of the payload length; under CPython's lenient
    `a2b_base64`, a pure-alphabet payload then decodes successfully
    except exactly when its length is `≡ 1 (mod 4)` (a length no valid
    unpadded base64 text has), in which case the failure surfaces as the
    recoverable `binascii.Error` value rather than a crash. -/
theorem b64_fixed_padding (payload : Str)
    (h : ∀ c ∈ payload, (b64Val c).isSome = true) :
    ((a2bBase64 (payload ++ pyS "==")).isOk = true ↔ payload.length % 4 ≠ 1)
    ∧ (∀ key, payload.length % 4 = 1 →
        mouflonDecode payload key = .error DecodeErr.binasciiError) := by
  have hrun := b64_alpha_run payload ⟨0, 0, 0, false, []⟩ h rfl (by decide)
  have hfold : (payload ++ pyS "==").foldl b64Step ⟨0, 0, 0, false, []⟩ =
      b64Step (b64Step (payload.foldl b64Step ⟨0, 0, 0, false, []⟩) '=') '=' := by
    rw [List.foldl_append]
    rfl
  obtain ⟨hdn, hqp, hpads⟩ := hrun
  have hpads0 : (payload.foldl b64Step ⟨0, 0, 0, false, []⟩).pads = 0 := by
    rw [hpads]
    cases payload <;> rfl
  rcases hst : payload.foldl b64Step ⟨0, 0, 0, false, []⟩ with ⟨qp, lc, pads, dn, out⟩
  rw [hst] at hdn hqp hpads0
  simp only at hdn hqp hpads0
  subst hdn
  subst hpads0
  have hqp2 : qp = payload.length % 4 := by simpa using hqp
  clear hqp hpads
  have hqplt : qp < 4 := by
    rw [hqp2]
    omega
  have hfin : a2bBase64 (payload ++ pyS "==") =
      (if (b64Step (b64Step ⟨qp, lc, 0, false, out⟩ '=') '=').done then
         .ok (b64Step (b64Step ⟨qp, lc, 0, false, out⟩ '=') '=').out
       else if (b64Step (b64Step ⟨qp, lc, 0, false, out⟩ '=') '=').quadPos = 0 then
         .ok (b64Step (b64Step ⟨qp, lc, 0, false, out⟩ '=') '=').out
       else .error ()) := by
    rw [a2bBase64, hfold, hst]
  have hiff : (a2bBase64 (payload ++ pyS "==")).isOk = true ↔ payload.length % 4 ≠ 1 := by
    have h4 : qp = 0 ∨ qp = 1 ∨ qp = 2 ∨ qp = 3 := by omega
    rcases h4 with h0 | h1 | h2 | h3
    · subst h0
      rw [hfin]
      simp [b64Step, Except.isOk, Except.toBool]
      omega
    · subst h1
      rw [hfin]
      simp [b64Step, Except.isOk, Except.toBool]
      omega
    · subst h2
      rw [hfin]
      simp [b64Step, Except.isOk, Except.toBool]
      omega
    · subst h3
      rw [hfin]
      simp [b64Step, Except.isOk, Except.toBool]
      omega
  refine ⟨hiff, ?_⟩
  intro key hlen
  have hko : (a2bBase64 (payload ++ pyS "==")).isOk = false := by
    rcases hb : a2bBase64 (payload ++ pyS "==") with u | bs
    · rfl
    · exact absurd hlen (hiff.mp (by rw [hb]; rfl))
  have herr : a2bBase64 (payload ++ pyS "==") = .error () := by
    rcases hb : a2bBase64 (payload ++ pyS "==") with u | bs
    · rfl
    · rw [hb] at hko
      cases hko
  have hascii : (payload ++ pyS "==").all (fun c => c.toNat < 128) = true := by
    rw [List.all_append]
    refine Bool.and_eq_true .. ▸ ⟨?_, by decide⟩
    rw [List.all_eq_true]
    intro c hc
    simpa using b64Val_ascii (h c hc)
  have hb64 : pyB64Decode (payload ++ pyS "==") = .error DecodeErr.binasciiError := by
    rw [pyB64Decode, if_pos hascii, herr]
  rw [mouflonDecode, hb64]

/-- Witness for C6 (amended) at a length-4 alphabet payload. -/
theorem b64_fixed_padding_witness :
    (a2bBase64 (pyS "QUJD" ++ pyS "==")).isOk = true :=
  (b64_fixed_padding (pyS "QUJD") (by decide)).1.mpr (by decide)

/-- C6, counterexample to the claim as stated: `"WYI8"` has data length
    `4 ≡ 0 (mod 4)`, so its correct base64 padding is empty, not two
    characters — yet `_decode` succeeds on it (the appended `"=="` is
    ignored by the lenient parser), decoding to `"ABC"` under the fallback
    pdkey. -/
theorem b64_fixed_padding_counterexample :
    (pyS "WYI8").length % 4 = 0 ∧
    mouflonDecode (pyS "WYI8") (pyS "ubahjae7goPoodi6") = .ok (pyS "ABC") :=
  ⟨by decide, by decide⟩

/-! ### Per-segment failure isolation (C9) -/

/-- C9 -- when `_decode` fails on one `#EXT-X-MOUFLON:FILE:` line, the loop
    continues over the remaining lines exactly as it would with no pending
    decoded identifier: only that segment's placeholder stays unresolved,
    the rest of the document is still processed, and nothing is aborted. -/
theorem m3u_bad_segment (psch : Option Str) (pkey dk payload : Str)
    (hpk : pkey ≠ []) (hdk : dk ≠ [])
    (hfail : (mouflonDecode payload dk).isOk = false)
    (rest : List Str) (pending : Option Str) (acc : Str) :
    m3uLoop psch (some pkey) (some dk) ((mouflonFileAttr ++ payload) :: rest) pending acc
      = m3uLoop psch (some pkey) (some dk) rest none acc := by
  have hpre : mouflonFileAttr.isPrefixOf (mouflonFileAttr ++ payload) = true :=
    List.isPrefixOf_iff_prefix.mpr (List.prefix_append _ _)
  have htr : (pyTruthyO (some pkey) && pyTruthyO (some dk)) = true := by
    simp [pyTruthyO, pyTruthy, hpk, hdk]
  have hd : (mouflonFileAttr ++ payload).drop mouflonFileAttr.length = payload :=
    List.drop_left _ _
  conv_lhs => rw [m3uLoop]
  rw [if_pos hpre, htr, hd]
  simp only [Option.getD_some, if_true]
  rcases hm : mouflonDecode payload dk with e | s
  · rfl
  · rw [hm] at hfail
    cases hfail

/-- Witness for C9 at a concrete failing payload (`"A"` cannot be base64
    decoded after the fixed padding) and the fallback key pair. -/
theorem m3u_bad_segment_witness :
    m3uLoop none (some (pyS "Ook7quaiNgiyuhai")) (some (pyS "$iPRUU0AnxoOSif9"))
        ((mouflonFileAttr ++ pyS "A") :: [pyS "#EXTM3U"]) none []
      = m3uLoop none (some (pyS "Ook7quaiNgiyuhai")) (some (pyS "$iPRUU0AnxoOSif9"))
        [pyS "#EXTM3U"] none [] :=
  m3u_bad_segment none (pyS "Ook7quaiNgiyuhai") (pyS "$iPRUU0AnxoOSif9") (pyS "A")
    (by decide) (by decide) (by decide) [pyS "#EXTM3U"] none []

/-! ### Passthrough without a directive (C2) -/

theorem strIn_iff_isInfix {sub s : Str} : strIn sub s = true ↔ sub <:+: s := by
  rw [strIn, findSub]
  rw [List.find?_isSome]
  constructor
  · rintro ⟨i, _, hp⟩
    have hpre : sub <+: s.drop i := List.isPrefixOf_iff_prefix.mp hp
    obtain ⟨t, ht⟩ := hpre
    exact ⟨s.take i, t, by rw [List.append_assoc, ht, List.take_append_drop]⟩
  · rintro ⟨p, q, hpq⟩
    refine ⟨p.length, ?_, ?_⟩
    · rw [List.mem_range]
      have : p.length ≤ s.length := by
        rw [← hpq]
        simp [List.length_append]
      omega
    · apply List.isPrefixOf_iff_prefix.mpr
      rw [← hpq, List.append_assoc, List.drop_left]
      exact List.prefix_append _ _

theorem mem_infix_joinNL {l : Str} {ls : List Str} (h : l ∈ ls) :
    l <:+: joinNL ls := by
  induction ls with
  | nil => cases h
  | cons a rest ih =>
    rcases List.mem_cons.mp h with rfl | hm
    · refine List.IsPrefix.isInfix ?_
      rw [joinNL, catMap, List.append_assoc]
      exact List.prefix_append _ _
    · have hshape : joinNL (a :: rest) = (a ++ ['\n']) ++ joinNL rest := rfl
      rw [hshape]
      exact (ih hm).trans (List.suffix_append _ _).isInfix

theorem appendParamsQ_none_none (q : List (Str × List Str)) :
    appendParamsQ none none q = (q, false) := rfl

theorem append_params_none_none (url : Str) :
    append_params none none url = url := by
  rw [append_params]
  split
  · rename_i r heq
    rw [appendParamsTry] at heq
    split at heq
    · cases heq
    · rename_i p hp
      split at heq
      · exact (Except.ok.inj heq).symm
      · simp only [appendParamsQ_none_none, Bool.not_false, if_true] at heq
        exact (Except.ok.inj heq).symm
  · rfl

theorem splitLinesGo_cons_nb (cur : Str) (c : Char) (r : Str)
    (hc : isLineBreak c = false) :
    splitLinesGo cur (c :: r) = splitLinesGo (c :: cur) r := by
  rw [splitLinesGo, if_neg (by rw [hc]; exact Bool.false_ne_true)]

theorem splitLinesGo_nl (cur t : Str) :
    splitLinesGo cur ('\n' :: t) = cur.reverse :: splitLinesGo [] t := by
  rw [splitLinesGo, if_pos (by decide)]

theorem splitLinesGo_line (l : Str) (hl : ∀ c ∈ l, isLineBreak c = false) :
    ∀ (cur t : Str), splitLinesGo cur (l ++ '\n' :: t) =
      (cur.reverse ++ l) :: splitLinesGo [] t := by
  induction l with
  | nil =>
    intro cur t
    rw [List.nil_append, splitLinesGo_nl, List.append_nil]
  | cons c l' ih =>
    intro cur t
    have hc : isLineBreak c = false := hl c (List.mem_cons_self _ _)
    rw [List.cons_append, splitLinesGo_cons_nb _ _ _ hc,
      ih (fun x hx => hl x (List.mem_cons_of_mem _ hx))]
    simp

theorem replaceGo_no_cr :
    ∀ (fuel : Nat) (s : Str), '\r' ∉ s →
      replaceGo (pyS "\r\n") (pyS "\n") fuel s = s := by
  intro fuel
  induction fuel with
  | zero => intro s _; cases s <;> rfl
  | succ f ih =>
    intro s hs
    cases s with
    | nil => rfl
    | cons c r =>
      have hc : c ≠ '\r' := fun he => hs (he ▸ List.mem_cons_self c r)
      have hpre : (pyS "\r\n").isPrefixOf (c :: r) = false := by
        apply Bool.eq_false_iff.mpr
        intro htrue
        obtain ⟨t, ht⟩ := List.isPrefixOf_iff_prefix.mp htrue
        have : '\r' = c := by
          have := congrArg (fun l => l.headD ' ') ht
          simpa [pyS] using this
        exact hc this.symm
      rw [replaceGo, if_neg (by rw [hpre]; exact Bool.false_ne_true)]
      rw [ih r (fun hm => hs (List.mem_cons_of_mem _ hm))]

theorem replaceAll_no_cr (s : Str) (h : '\r' ∉ s) :
    replaceAll s (pyS "\r\n") (pyS "\n") = s := by
  rw [replaceAll, if_neg (by decide)]
  exact replaceGo_no_cr s.length s h

theorem pySplitlines_joinNL (ls : List Str)
    (h : ∀ l ∈ ls, ∀ c ∈ l, isLineBreak c = false) :
    pySplitlines (joinNL ls) = ls := by
  have hnocr : '\r' ∉ joinNL ls := by
    intro hm
    induction ls with
    | nil => cases hm
    | cons a rest ih =>
      rw [joinNL, catMap] at hm
      rcases List.mem_append.mp hm with hm1 | hm2
      · rcases List.mem_append.mp hm1 with hm1a | hm1b
        · have := h a (List.mem_cons_self _ _) '\r' hm1a
          simp [isLineBreak] at this
        · simp at hm1b
      · exact ih (fun l hl => h l (List.mem_cons_of_mem _ hl)) hm2
  rw [pySplitlines, replaceAll_no_cr _ hnocr]
  clear hnocr
  induction ls with
  | nil => rfl
  | cons a rest ih =>
    have hj : joinNL (a :: rest) = a ++ '\n' :: joinNL rest := by
      rw [joinNL, catMap, List.append_assoc]
      rfl
    rw [hj, splitLinesGo_line a (h a (List.mem_cons_self _ _))]
    rw [List.reverse_nil, List.nil_append]
    rw [ih (fun l hl => h l (List.mem_cons_of_mem _ hl))]

theorem m3uLoop_keeps_lines (ls : List Str)
    (h : ∀ l ∈ ls, mouflonFileAttr.isPrefixOf l = false ∧
        (pyS "#EXT-X-MAP:").isPrefixOf l = false ∧
        (pyS "#EXT-X-PART:").isPrefixOf l = false) :
    ∀ acc, m3uLoop none none none ls none acc = .ok (acc ++ joinNL ls) := by
  induction ls with
  | nil =>
    intro acc
    rw [m3uLoop, joinNL, catMap, List.append_nil]
  | cons l rest ih =>
    intro acc
    obtain ⟨h1, h2, h3⟩ := h l (List.mem_cons_self _ _)
    have hrest := fun x hx => h x (List.mem_cons_of_mem _ hx)
    have hstep : ∀ acc2, m3uLoop none none none (l :: rest) none acc2 =
        m3uLoop none none none rest none (acc2 ++ l ++ ['\n']) := by
      intro acc2
      conv_lhs => rw [m3uLoop]
      rw [h1]
      simp only [Bool.false_eq_true, if_false]
      rw [show (mouflonFilename.isSuffixOf l && pyTruthyO none) = false from by
        simp [pyTruthyO]]
      simp only [Bool.false_eq_true, if_false]
      rw [h2]
      simp only [Bool.false_eq_true, if_false]
      rw [h3]
      simp only [Bool.false_eq_true, if_false]
      by_cases hb : ((pyS "http://").isPrefixOf l || (pyS "https://").isPrefixOf l) = true
      · rw [if_pos hb, append_params_none_none]
      · rw [if_neg hb]
    rw [hstep acc, ih hrest]
    have : joinNL (l :: rest) = (l ++ ['\n']) ++ joinNL rest := rfl
    rw [this]
    simp [List.append_assoc]

/-- C2 (amended) -- for a manifest with no `#EXT-X-MOUFLON:` marker anywhere
    (hence no encryption directive and no concealed-payload lines), made up
    of `'\n'`-terminated lines that contain no other line-break characters
    and no `#EXT-X-MAP:`/`#EXT-X-PART:` URI-attribute lines, `m3u_decoder`
    returns the input exactly.  (In general the output differs from such a
    passthrough by newline normalization: a trailing `'\n'` is appended and
    all universal-newline terminators become `'\n'`.) -/
theorem m3u_passthrough (keys : List (Str × Str)) (ls : List Str)
    (hA : strIn (pyS "#EXT-X-MOUFLON:") (joinNL ls) = false)
    (hbr : ∀ l ∈ ls, ∀ c ∈ l, isLineBreak c = false)
    (hmp : ∀ l ∈ ls, (pyS "#EXT-X-MAP:").isPrefixOf l = false ∧
        (pyS "#EXT-X-PART:").isPrefixOf l = false) :
    m3u_decoder keys (joinNL ls) = .ok (joinNL ls) := by
  have hfind : findSub (joinNL ls) (pyS "#EXT-X-MOUFLON:") = none := by
    rcases hf : findSub (joinNL ls) (pyS "#EXT-X-MOUFLON:") with _ | i
    · rfl
    · rw [strIn, hf] at hA
      cases hA
  have hmou : getMouflonFromM3U (joinNL ls) = (none, none) := by
    rw [getMouflonFromM3U, hfind]
  have hfile : ∀ l ∈ ls, mouflonFileAttr.isPrefixOf l = false := by
    intro l hl
    apply Bool.eq_false_iff.mpr
    intro htrue
    have h1 : pyS "#EXT-X-MOUFLON:" <+: mouflonFileAttr := by decide
    have h2 : mouflonFileAttr <+: l := List.isPrefixOf_iff_prefix.mp htrue
    have hinf : pyS "#EXT-X-MOUFLON:" <:+: joinNL ls :=
      ((h1.trans h2).isInfix).trans (mem_infix_joinNL hl)
    exact absurd (strIn_iff_isInfix.mpr hinf)
      (by rw [hA]; exact Bool.false_ne_true)
  rw [m3u_decoder, hmou]
  simp only [pyTruthyO, Bool.and_false, Bool.false_eq_true, if_false]
  rw [pySplitlines_joinNL ls hbr]
  rw [m3uLoop_keeps_lines ls
    (fun l hl => ⟨hfile l hl, (hmp l hl).1, (hmp l hl).2⟩) []]
  rw [List.nil_append]

/-- Witness for C2 (amended) at a small concrete unencrypted manifest. -/
theorem m3u_passthrough_witness :
    m3u_decoder FALLBACK_KEYS (joinNL [pyS "#EXTM3U", pyS "https://doppiocdn.com/x.m3u8"]) =
      .ok (joinNL [pyS "#EXTM3U", pyS "https://doppiocdn.com/x.m3u8"]) :=
  m3u_passthrough FALLBACK_KEYS [pyS "#EXTM3U", pyS "https://doppiocdn.com/x.m3u8"]
    (by decide) (by decide) (by decide)

/-- C2, counterexample to the claim as stated: on the directive-free
    manifest `"a"` (no trailing newline) `m3u_decoder` returns `"a\n"`,
    not the input. -/
theorem m3u_passthrough_counterexample :
    m3u_decoder FALLBACK_KEYS (pyS "a") = .ok (pyS "a\n") ∧
    m3u_decoder FALLBACK_KEYS (pyS "a") ≠ .ok (pyS "a") :=
  ⟨by decide, by decide⟩

theorem m3uLoop_frame (psch pkey pdkey : Option Str) (ls : List Str) :
    ∀ pending acc out, m3uLoop psch pkey pdkey ls pending acc = .ok out →
    ∃ edits : List (Option Str),
      List.Forall₂ (allowedEdit psch pkey) ls edits ∧
      out = acc ++ joinNL (edits.filterMap id) := by
  induction ls with
  | nil =>
    intro pending acc out h
    rw [m3uLoop] at h
    injection h with h
    exact ⟨[], List.Forall₂.nil, by
      rw [← h]; exact (List.append_nil acc).symm⟩
  | cons line rest ih =>
    intro pending acc out h
    rw [m3uLoop] at h
    by_cases h1 : mouflonFileAttr.isPrefixOf line = true
    · rw [if_pos h1] at h
      obtain ⟨edits, hf, he⟩ := ih _ _ _ h
      exact ⟨none :: edits, List.Forall₂.cons h1 hf, by
        rw [he]; rfl⟩
    · rw [if_neg h1] at h
      by_cases h2 : (mouflonFilename.isSuffixOf line && pyTruthyO pending) = true
      · rw [if_pos h2] at h
        obtain ⟨edits, hf, he⟩ := ih _ _ _ h
        refine ⟨some (append_params psch pkey
            (replaceAll line mouflonFilename (pending.getD []))) :: edits,
          List.Forall₂.cons (Or.inr (Or.inr (Or.inr ⟨pending.getD [], rfl⟩))) hf, ?_⟩
        rw [he]
        simp [joinNL, catMap, List.filterMap, List.append_assoc]
      · rw [if_neg h2] at h
        by_cases h3 : (pyS "#EXT-X-MAP:").isPrefixOf line = true
        · rw [if_pos h3] at h
          split at h
          next g hg =>
            split at h
            next line2 hs =>
              obtain ⟨edits, hf, he⟩ := ih _ _ _ h
              refine ⟨some line2 :: edits,
                List.Forall₂.cons (Or.inr (Or.inr (Or.inl ⟨g, hg, hs⟩))) hf, ?_⟩
              rw [he]
              simp [joinNL, catMap, List.filterMap, List.append_assoc]
            next e hs => exact Except.noConfusion h
          next hg =>
            obtain ⟨edits, hf, he⟩ := ih _ _ _ h
            refine ⟨some line :: edits, List.Forall₂.cons (Or.inl rfl) hf, ?_⟩
            rw [he]
            simp [joinNL, catMap, List.filterMap, List.append_assoc]
        · rw [if_neg h3] at h
          by_cases h4 : (pyS "#EXT-X-PART:").isPrefixOf line = true
          · rw [if_pos h4] at h
            split at h
            next g hg =>
              split at h
              next line2 hs =>
                obtain ⟨edits, hf, he⟩ := ih _ _ _ h
                refine ⟨some line2 :: edits,
                  List.Forall₂.cons (Or.inr (Or.inr (Or.inl ⟨g, hg, hs⟩))) hf, ?_⟩
                rw [he]
                simp [joinNL, catMap, List.filterMap, List.append_assoc]
              next e hs => exact Except.noConfusion h
            next hg =>
              obtain ⟨edits, hf, he⟩ := ih _ _ _ h
              refine ⟨some line :: edits, List.Forall₂.cons (Or.inl rfl) hf, ?_⟩
              rw [he]
              simp [joinNL, catMap, List.filterMap, List.append_assoc]
          · rw [if_neg h4] at h
            by_cases h5 : ((pyS "http://").isPrefixOf line ||
                (pyS "https://").isPrefixOf line) = true
            · rw [if_pos h5] at h
              obtain ⟨edits, hf, he⟩ := ih _ _ _ h
              refine ⟨some (append_params psch pkey line) :: edits,
                List.Forall₂.cons (Or.inr (Or.inl rfl)) hf, ?_⟩
              rw [he]
              simp [joinNL, catMap, List.filterMap, List.append_assoc]
            · rw [if_neg h5] at h
              obtain ⟨edits, hf, he⟩ := ih _ _ _ h
              refine ⟨some line :: edits, List.Forall₂.cons (Or.inl rfl) hf, ?_⟩
              rw [he]
              simp [joinNL, catMap, List.filterMap, List.append_assoc]

/-- C5 (amended) -- whenever `m3u_decoder` returns normally, its output is
    the input's `splitlines` decomposition rejoined with `'\n'` after each
    kept line, where every input line is either kept unchanged, kept with
    one of the allowed edits (placeholder filename replaced by a decoded
    identifier and/or URI query string augmented with the scheme/key-id
    parameters), or removed -- the last only for `#EXT-X-MOUFLON:FILE:`
    key-directive lines.  (The claim's byte-for-byte framing fails: the
    directive lines are removed, and line terminators are normalized.) -/
theorem m3u_frame (keys : List (Str × Str)) (content out : Str)
    (h : m3u_decoder keys content = .ok out) :
    ∃ psch pkey edits,
      List.Forall₂ (allowedEdit psch pkey) (pySplitlines content) edits ∧
      out = joinNL (edits.filterMap id) := by
  rw [m3u_decoder] at h
  obtain ⟨edits, hf, he⟩ := m3uLoop_frame _ _ _ _ _ _ _ h
  exact ⟨_, _, edits, hf, by rw [he, List.nil_append]⟩

/-- Witness for C5 (amended) at a concrete two-line manifest. -/
theorem m3u_frame_witness :
    ∃ psch pkey edits,
      List.Forall₂ (allowedEdit psch pkey)
        (pySplitlines (pyS "#EXTM3U\nfoo\n")) edits ∧
      pyS "#EXTM3U\nfoo\n" = joinNL (edits.filterMap id) :=
  m3u_frame FALLBACK_KEYS (pyS "#EXTM3U\nfoo\n") (pyS "#EXTM3U\nfoo\n") (by decide)

/-- C5, counterexample to the claim as stated: the `#EXT-X-MOUFLON:FILE:`
    directive line is removed from the output, so a two-line input yields a
    one-line output -- not the input with only placeholder and query-string
    edits. -/
theorem m3u_frame_counterexample :
    m3u_decoder FALLBACK_KEYS (pyS "#EXT-X-MOUFLON:FILE:x\nfoo\n") =
      .ok (pyS "foo\n") ∧
    (pySplitlines (pyS "#EXT-X-MOUFLON:FILE:x\nfoo\n")).length = 2 ∧
    (pySplitlines (pyS "foo\n")).length = 1 :=
  ⟨by decide, by decide, by decide⟩

theorem dGet_append_left (d d' : List (Str × α)) (k : Str) (h : dHas d k = true) :
    dGet (d ++ d') k = dGet d k := by
  induction d with
  | nil => simp [dHas, dGet] at h
  | cons kv rest ih =>
    rw [List.cons_append, dGet_cons, dGet_cons]
    by_cases hk : kv.1 = k
    · rw [if_pos hk, if_pos hk]
    · rw [if_neg hk, if_neg hk]
      apply ih
      rw [dHas, dGet_cons, if_neg hk] at h
      exact h

theorem dHas_append_left (d d' : List (Str × α)) (k : Str) (h : dHas d k = true) :
    dHas (d ++ d') k = true := by
  rw [dHas, dGet_append_left d d' k h]
  exact h

theorem dHas_append_ne (d : List (Str × α)) (k k' : Str) (v : α) (hne : k ≠ k') :
    dHas (d ++ [(k, v)]) k' = dHas d k' := by
  induction d with
  | nil => simp [dHas, dGet_cons, dGet_nil, hne]
  | cons kv rest ih =>
    rw [List.cons_append, dHas, dGet_cons, dHas, dGet_cons]
    by_cases hk : kv.1 = k'
    · rw [if_pos hk, if_pos hk]
    · rw [if_neg hk, if_neg hk]
      exact ih

theorem dAppend_keys (d : List (Str × List Str)) (k : Str) (v : Str) :
    (dAppend d k v).map Prod.fst =
      if k ∈ d.map Prod.fst then d.map Prod.fst else d.map Prod.fst ++ [k] := by
  induction d with
  | nil => rw [dAppend]; rw [if_neg (by simp)]; rfl
  | cons kv rest ih =>
    by_cases h : kv.1 = k
    · have hmem : k ∈ (kv :: rest).map Prod.fst := by
        rw [List.map_cons, ← h]
        exact List.mem_cons_self _ _
      rw [dAppend, if_pos h, if_pos hmem, List.map_cons, List.map_cons]
    · rw [dAppend, if_neg h, List.map_cons, List.map_cons, ih]
      by_cases hm : k ∈ rest.map Prod.fst
      · rw [if_pos hm, if_pos (List.mem_cons_of_mem _ hm)]
      · rw [if_neg hm, if_neg (by
          intro hc
          rcases List.mem_cons.mp hc with hc | hc
          · exact h hc.symm
          · exact hm hc)]
        rw [List.cons_append]

theorem dAppend_nodup (d : List (Str × List Str)) (k : Str) (v : Str)
    (h : (d.map Prod.fst).Nodup) : ((dAppend d k v).map Prod.fst).Nodup := by
  rw [dAppend_keys]
  by_cases hm : k ∈ d.map Prod.fst
  · rw [if_pos hm]; exact h
  · rw [if_neg hm, List.nodup_append]
    refine ⟨h, List.nodup_singleton k, ?_⟩
    intro a ha hak
    have : a = k := by simpa using hak
    exact hm (this ▸ ha)

theorem qsFold_nodup (l : List (Str × Str)) :
    ∀ d : List (Str × List Str), (d.map Prod.fst).Nodup →
    ((l.foldl (fun d kv => dAppend d kv.1 kv.2) d).map Prod.fst).Nodup := by
  induction l with
  | nil => intro d h; exact h
  | cons kv rest ih =>
    intro d h
    rw [List.foldl_cons]
    exact ih _ (dAppend_nodup _ _ _ h)

theorem parseQs_nodup (qs : Str) : ((parseQs qs).map Prod.fst).Nodup := by
  rw [parseQs]
  exact qsFold_nodup _ [] (by simp)

theorem appendParamsQ_eq (psch pkey : Option Str) (q : List (Str × List Str)) :
    appendParamsQ psch pkey q =
      (q ++ (if pyTruthyO psch && !dHas q (pyS "psch")
            then [(pyS "psch", [psch.getD []])] else [])
        ++ (if pyTruthyO pkey && !dHas q (pyS "pkey")
            then [(pyS "pkey", [pkey.getD []])] else []),
       ((pyTruthyO psch && !dHas q (pyS "psch")) ||
        (pyTruthyO pkey && !dHas q (pyS "pkey")))) := by
  have hne : dHas (q ++ [(pyS "psch", [psch.getD []])]) (pyS "pkey") =
      dHas q (pyS "pkey") :=
    dHas_append_ne q _ _ _ (by decide)
  rw [appendParamsQ]
  by_cases hc1 : (pyTruthyO psch && !dHas q (pyS "psch")) = true
  · by_cases hc2 : (pyTruthyO pkey && !dHas q (pyS "pkey")) = true
    · simp [hc1, hc2, hne]
    · have hc2' : (pyTruthyO pkey && !dHas q (pyS "pkey")) = false :=
        Bool.eq_false_iff.mpr hc2
      simp [hc1, hc2', hne]
  · have hc1' : (pyTruthyO psch && !dHas q (pyS "psch")) = false :=
      Bool.eq_false_iff.mpr hc1
    by_cases hc2 : (pyTruthyO pkey && !dHas q (pyS "pkey")) = true
    · simp [hc1', hc2]
    · have hc2' : (pyTruthyO pkey && !dHas q (pyS "pkey")) = false :=
        Bool.eq_false_iff.mpr hc2
      simp [hc1', hc2']

theorem nodup_append_one {α : Type} (K : List α) (a : α)
    (h : K.Nodup) (ha : a ∉ K) : (K ++ [a]).Nodup := by
  rw [List.nodup_append]
  refine ⟨h, List.nodup_singleton a, ?_⟩
  intro x hx hxa
  rw [List.mem_singleton] at hxa
  exact ha (hxa ▸ hx)

theorem nodup_append_two {α : Type} (K : List α) (a b : α)
    (h : K.Nodup) (ha : a ∉ K) (hb : b ∉ K) (hab : a ≠ b) :
    (K ++ [a] ++ [b]).Nodup := by
  rw [List.nodup_append]
  refine ⟨nodup_append_one K a h ha, List.nodup_singleton b, ?_⟩
  intro x hx hxb
  rw [List.mem_singleton] at hxb
  rcases List.mem_append.mp hx with h1 | h2
  · exact hb (hxb ▸ h1)
  · rw [List.mem_singleton] at h2
    exact hab (h2 ▸ hxb)

theorem appendParamsQ_nodup (psch pkey : Option Str) (q : List (Str × List Str))
    (h : (q.map Prod.fst).Nodup) :
    ((appendParamsQ psch pkey q).1.map Prod.fst).Nodup := by
  rw [appendParamsQ_eq]
  by_cases hc1 : (pyTruthyO psch && !dHas q (pyS "psch")) = true
  · have h1 : pyS "psch" ∉ q.map Prod.fst := by
      intro hm
      have := (Bool.and_eq_true _ _).mp hc1
      rw [Bool.not_eq_true'] at this
      rw [dHas_iff_mem_keys.mpr hm] at this
      exact Bool.noConfusion this.2
    by_cases hc2 : (pyTruthyO pkey && !dHas q (pyS "pkey")) = true
    · have h2 : pyS "pkey" ∉ q.map Prod.fst := by
        intro hm
        have := (Bool.and_eq_true _ _).mp hc2
        rw [Bool.not_eq_true'] at this
        rw [dHas_iff_mem_keys.mpr hm] at this
        exact Bool.noConfusion this.2
      rw [if_pos hc1, if_pos hc2, List.map_append, List.map_append, List.map_singleton,
        List.map_singleton]
      exact nodup_append_two _ _ _ h h1 h2
        (by show pyS "psch" ≠ pyS "pkey"; decide)
    · rw [if_pos hc1, if_neg hc2, List.append_nil, List.map_append, List.map_singleton]
      exact nodup_append_one _ _ h h1
  · rw [if_neg hc1, List.append_nil]
    by_cases hc2 : (pyTruthyO pkey && !dHas q (pyS "pkey")) = true
    · have h2 : pyS "pkey" ∉ q.map Prod.fst := by
        intro hm
        have := (Bool.and_eq_true _ _).mp hc2
        rw [Bool.not_eq_true'] at this
        rw [dHas_iff_mem_keys.mpr hm] at this
        exact Bool.noConfusion this.2
      rw [if_pos hc2, List.map_append, List.map_singleton]
      exact nodup_append_one _ _ h h2
    · rw [if_neg hc2, List.append_nil]
      exact h

theorem append_params_toOption (psch pkey : Option Str) (url : Str) :
    append_params psch pkey url =
      (appendParamsTry psch pkey url).toOption.getD url := by
  rw [append_params]
  cases appendParamsTry psch pkey url <;> rfl

theorem append_params_eval (psch pkey : Option Str) (url : Str) (p : SplitResult)
    (hp : pyUrlsplit url = .ok p) :
    append_params psch pkey url =
      (if recognizedNetloc p.netloc = false then url
       else if (appendParamsQ psch pkey (parseQs p.query)).2 = false then url
       else pyUrlunsplit ⟨p.scheme, p.netloc, p.path,
         pyUrlencode ((appendParamsQ psch pkey (parseQs p.query)).1.map
           (fun kv => (kv.1, kv.2.headD []))), p.fragment⟩) := by
  rw [append_params_toOption, appendParamsTry, hp]
  show ((if !recognizedNetloc p.netloc then (Except.ok url : Except Unit Str)
      else if !(appendParamsQ psch pkey (parseQs p.query)).2
        then .ok url
        else .ok (pyUrlunsplit ⟨p.scheme, p.netloc, p.path,
          pyUrlencode ((appendParamsQ psch pkey (parseQs p.query)).1.map
            (fun kv => (kv.1, kv.2.headD []))), p.fragment⟩)).toOption.getD url) = _
  cases hr : recognizedNetloc p.netloc
  · rfl
  · cases hq : (appendParamsQ psch pkey (parseQs p.query)).2
    · rfl
    · rfl

/-- C3 -- for a URL that `urlsplit` parses: if the netloc does not contain
    one of the three recognized delivery-edge suffixes, `_append_params`
    returns the URL completely unmodified; if it does, then in the parsed
    query dict (i) `psch`/`pkey` entries are appended at the end only when
    truthy and not already present, with the pre-existing parameters kept
    in order, (ii) the resulting keys are duplicate-free, (iii) every
    pre-existing parameter keeps its value, (iv) a URL already carrying
    both parameters is returned unchanged (idempotence), (v) when nothing
    was added the URL is returned unchanged, and (vi) when something was
    added the result is the re-assembled URL with the augmented query. -/
theorem append_params_spec (psch pkey : Option Str) (url : Str) (p : SplitResult)
    (hp : pyUrlsplit url = .ok p) :
    (recognizedNetloc p.netloc = false → append_params psch pkey url = url) ∧
    (recognizedNetloc p.netloc = true →
      ((appendParamsQ psch pkey (parseQs p.query)).1 =
        parseQs p.query
          ++ (if pyTruthyO psch && !dHas (parseQs p.query) (pyS "psch")
              then [(pyS "psch", [psch.getD []])] else [])
          ++ (if pyTruthyO pkey && !dHas (parseQs p.query) (pyS "pkey")
              then [(pyS "pkey", [pkey.getD []])] else [])) ∧
      ((appendParamsQ psch pkey (parseQs p.query)).1.map Prod.fst).Nodup ∧
      (∀ k, dHas (parseQs p.query) k = true →
        dGet (appendParamsQ psch pkey (parseQs p.query)).1 k =
          dGet (parseQs p.query) k) ∧
      (dHas (parseQs p.query) (pyS "psch") = true →
        dHas (parseQs p.query) (pyS "pkey") = true →
        append_params psch pkey url = url) ∧
      ((appendParamsQ psch pkey (parseQs p.query)).2 = false →
        append_params psch pkey url = url) ∧
      ((appendParamsQ psch pkey (parseQs p.query)).2 = true →
        append_params psch pkey url = pyUrlunsplit ⟨p.scheme, p.netloc, p.path,
          pyUrlencode ((appendParamsQ psch pkey (parseQs p.query)).1.map
            (fun kv => (kv.1, kv.2.headD []))), p.fragment⟩)) := by
  have he := append_params_eval psch pkey url p hp
  constructor
  · intro hrec
    rw [he, if_pos hrec]
  · intro hrec
    refine ⟨?_, ?_, ?_, ?_, ?_, ?_⟩
    · rw [appendParamsQ_eq]
    · exact appendParamsQ_nodup psch pkey _ (parseQs_nodup _)
    · intro k hk
      rw [appendParamsQ_eq]
      exact (dGet_append_left _ _ k (dHas_append_left _ _ k hk)).trans
        (dGet_append_left _ _ k hk)
    · intro hh1 hh2
      have hflag : (appendParamsQ psch pkey (parseQs p.query)).2 = false := by
        rw [appendParamsQ_eq]
        simp [hh1, hh2]
      rw [he, if_neg (by simp [hrec]), if_pos hflag]
    · intro hflag
      rw [he, if_neg (by simp [hrec]), if_pos hflag]
    · intro hflag
      rw [he, if_neg (by simp [hrec]), if_neg (by simp [hflag])]

/-- Witness for C3 at a recognized-host URL with one pre-existing
    parameter: both parameters are appended after it. -/
theorem append_params_spec_witness :
    append_params (some (pyS "v1")) (some (pyS "kid"))
        (pyS "http://b.doppiocdn.com/a.m3u8?x=1") =
      pyS "http://b.doppiocdn.com/a.m3u8?x=1&psch=v1&pkey=kid" := by
  have h := append_params_spec (some (pyS "v1")) (some (pyS "kid"))
    (pyS "http://b.doppiocdn.com/a.m3u8?x=1")
    ⟨pyS "http", pyS "b.doppiocdn.com", pyS "/a.m3u8", pyS "x=1", pyS ""⟩
    (by decide)
  have h2 := (h.2 (by decide)).2.2.2.2.2 (by decide)
  rw [h2]
  decide

theorem mem_catMap {α β : Type} (f : α → List β) :
    ∀ (l : List α) (x : β), x ∈ catMap f l → ∃ a ∈ l, x ∈ f a := by
  intro l
  induction l with
  | nil => intro x hx; cases hx
  | cons a r ih =>
    intro x hx
    rw [catMap] at hx
    rcases List.mem_append.mp hx with h | h
    · exact ⟨a, List.mem_cons_self _ _, h⟩
    · obtain ⟨b, hb, hxb⟩ := ih x h
      exact ⟨b, List.mem_cons_of_mem _ hb, hxb⟩

theorem char_toNat_lt (c : Char) : c.toNat < 1114112 := by
  show c.val.toNat < 1114112
  rcases c.valid with h | ⟨h1, h2⟩
  · omega
  · exact h2

theorem utf8EncodeChar_lt (c : Char) : ∀ b ∈ utf8EncodeChar c, b < 256 := by
  intro b hb
  have hc : c.toNat < 1114112 := char_toNat_lt c
  rw [utf8EncodeChar] at hb
  by_cases h1 : c.toNat < 0x80
  · rw [if_pos h1] at hb
    simp only [List.mem_cons, List.not_mem_nil, or_false] at hb
    omega
  · rw [if_neg h1] at hb
    by_cases h2 : c.toNat < 0x800
    · rw [if_pos h2] at hb
      simp only [List.mem_cons, List.not_mem_nil, or_false] at hb
      rcases hb with h | h <;> omega
    · rw [if_neg h2] at hb
      by_cases h3 : c.toNat < 0x10000
      · rw [if_pos h3] at hb
        simp only [List.mem_cons, List.not_mem_nil, or_false] at hb
        rcases hb with h | h | h <;> omega
      · rw [if_neg h3] at hb
        simp only [List.mem_cons, List.not_mem_nil, or_false] at hb
        rcases hb with h | h | h | h <;> omega

theorem utf8Encode_lt (s : Str) : ∀ b ∈ utf8Encode s, b < 256 := by
  intro b hb
  obtain ⟨c, _, hbc⟩ := mem_catMap utf8EncodeChar s b hb
  exact utf8EncodeChar_lt c b hbc

set_option maxRecDepth 2000 in
theorem quoteByte_empty_no_bs : ∀ b, b < 256 → '\\' ∉ quoteByte [] b := by decide

set_option maxRecDepth 2000 in
theorem quoteByte_space_no_bs : ∀ b, b < 256 → '\\' ∉ quoteByte [' '] b := by decide

theorem pyQuote_empty_no_bs (s : Str) : '\\' ∉ pyQuote s [] := by
  intro h
  obtain ⟨b, hb, hbs⟩ := mem_catMap (quoteByte []) (utf8Encode s) '\\' h
  exact quoteByte_empty_no_bs b (utf8Encode_lt s b hb) hbs

theorem pyQuote_space_no_bs (s : Str) : '\\' ∉ pyQuote s [' '] := by
  intro h
  obtain ⟨b, hb, hbs⟩ := mem_catMap (quoteByte [' ']) (utf8Encode s) '\\' h
  exact quoteByte_space_no_bs b (utf8Encode_lt s b hb) hbs

theorem pyQuotePlus_no_bs (s : Str) : '\\' ∉ pyQuotePlus s := by
  rw [pyQuotePlus]
  by_cases h : s.contains ' '
  · rw [if_pos h]
    intro hm
    obtain ⟨c, hc, hcm⟩ := List.mem_map.mp hm
    by_cases hsp : c = ' '
    · rw [if_pos hsp] at hcm
      exact absurd hcm (by decide)
    · rw [if_neg hsp] at hcm
      exact pyQuote_space_no_bs s (hcm ▸ hc)
  · rw [if_neg h]
    exact pyQuote_empty_no_bs s

theorem joinSep_mem (sep : Str) :
    ∀ (l : List Str) (x : Char), x ∈ joinSep sep l → x ∈ sep ∨ ∃ a ∈ l, x ∈ a := by
  intro l
  induction l with
  | nil => intro x hx; cases hx
  | cons a r ih =>
    intro x hx
    cases r with
    | nil =>
      exact Or.inr ⟨a, List.mem_cons_self _ _, hx⟩
    | cons b r2 =>
      rw [show joinSep sep (a :: b :: r2) = a ++ sep ++ joinSep sep (b :: r2)
        from rfl] at hx
      rcases List.mem_append.mp hx with h | h
      · rcases List.mem_append.mp h with h | h
        · exact Or.inr ⟨a, List.mem_cons_self _ _, h⟩
        · exact Or.inl h
      · rcases ih x h with h | ⟨a2, ha2, hxa2⟩
        · exact Or.inl h
        · exact Or.inr ⟨a2, List.mem_cons_of_mem _ ha2, hxa2⟩

theorem pyUrlencode_no_bs (q : List (Str × Str)) : '\\' ∉ pyUrlencode q := by
  intro h
  rw [pyUrlencode] at h
  rcases joinSep_mem ['&'] _ '\\' h with h | ⟨a, ha, hxa⟩
  · simp at h
  · obtain ⟨kv, _, hkv⟩ := List.mem_map.mp ha
    rw [← hkv] at hxa
    rcases List.mem_append.mp hxa with h | h
    · exact pyQuotePlus_no_bs kv.1 h
    · rcases List.mem_cons.mp h with h | h
      · exact absurd h (by decide)
      · exact pyQuotePlus_no_bs kv.2 h

theorem toLower_ne_bs (c : Char) (hc : c ≠ '\\') : Char.toLower c ≠ '\\' := by
  intro h
  have hdef : Char.toLower c = if c.toNat ≥ 65 ∧ c.toNat ≤ 90
      then Char.ofNat (c.toNat + 32) else c := rfl
  rw [hdef] at h
  by_cases hr : c.toNat ≥ 65 ∧ c.toNat ≤ 90
  · rw [if_pos hr] at h
    have hv : (c.toNat + 32).isValidChar := Or.inl (by omega)
    rw [Char.ofNat, dif_pos hv] at h
    have h2 := congrArg Char.toNat h
    have h3 : Char.toNat '\\' = 92 := by decide
    rw [h3] at h2
    simp only [Char.ofNatAux, Char.toNat, UInt32.toNat, BitVec.toNat_ofNatLt] at h2
    simp only [Char.toNat, UInt32.toNat] at hr
    omega
  · rw [if_neg hr] at h
    exact hc h

theorem splitOnce_subset (sep : Char) :
    ∀ (s a b : Str), splitOnce sep s = some (a, b) →
      (∀ x ∈ a, x ∈ s) ∧ ∀ x ∈ b, x ∈ s := by
  intro s
  induction s with
  | nil => intro a b h; cases h
  | cons c r ih =>
    intro a b h
    rw [splitOnce] at h
    by_cases hc : c = sep
    · rw [if_pos hc] at h
      injection h with h
      injection h with h1 h2
      subst h1
      subst h2
      exact ⟨fun x hx => absurd hx (List.not_mem_nil x),
        fun x hx => List.mem_cons_of_mem _ hx⟩
    · rw [if_neg hc] at h
      rcases hsp : splitOnce sep r with _ | q
      · rw [hsp] at h
        cases h
      · rw [hsp] at h
        injection h with h
        injection h with h1 h2
        obtain ⟨ih1, ih2⟩ := ih q.1 q.2 (by rw [hsp])
        constructor
        · intro x hx
          rw [← h1] at hx
          rcases List.mem_cons.mp hx with hx | hx
          · exact hx ▸ List.mem_cons_self _ _
          · exact List.mem_cons_of_mem _ (ih1 x hx)
        · intro x hx
          rw [← h2] at hx
          exact List.mem_cons_of_mem _ (ih2 x hx)

theorem splitFragQuery_subset (u : Str) :
    (∀ x ∈ (splitFragQuery u).1, x ∈ u) ∧ (∀ x ∈ (splitFragQuery u).2.1, x ∈ u) ∧
      (∀ x ∈ (splitFragQuery u).2.2, x ∈ u) := by
  rcases hf : splitOnce '#' u with _ | pf
  · rcases hq : splitOnce '?' u with _ | pq
    · have he : splitFragQuery u = (u, [], []) := by
        simp only [splitFragQuery, hf, hq]
      rw [he]
      exact ⟨fun x hx => hx, fun x hx => absurd hx (List.not_mem_nil x),
        fun x hx => absurd hx (List.not_mem_nil x)⟩
    · have he : splitFragQuery u = (pq.1, pq.2, []) := by
        simp only [splitFragQuery, hf, hq]
      obtain ⟨ha, hb⟩ := splitOnce_subset '?' u pq.1 pq.2 (by rw [hq])
      rw [he]
      exact ⟨ha, hb, fun x hx => absurd hx (List.not_mem_nil x)⟩
  · obtain ⟨hf1, hf2⟩ := splitOnce_subset '#' u pf.1 pf.2 (by rw [hf])
    rcases hq : splitOnce '?' pf.1 with _ | pq
    · have he : splitFragQuery u = (pf.1, [], pf.2) := by
        simp only [splitFragQuery, hf, hq]
      rw [he]
      exact ⟨hf1, fun x hx => absurd hx (List.not_mem_nil x), hf2⟩
    · have he : splitFragQuery u = (pq.1, pq.2, pf.2) := by
        simp only [splitFragQuery, hf, hq]
      obtain ⟨hq1, hq2⟩ := splitOnce_subset '?' pf.1 pq.1 pq.2 (by rw [hq])
      rw [he]
      exact ⟨fun x hx => hf1 x (hq1 x hx), fun x hx => hf1 x (hq2 x hx), hf2⟩

theorem splitScheme_no_bs (u : Str) (hu : '\\' ∉ u) :
    '\\' ∉ (splitScheme u).1 ∧ '\\' ∉ (splitScheme u).2 := by
  rw [splitScheme]
  rcases hf : findSub u [':'] with _ | i
  · exact ⟨fun h => absurd h (List.not_mem_nil _), hu⟩
  · by_cases hc : (0 < i && isAsciiLetter (u.headD ' ') &&
        (u.take i).all (fun c => schemeCharsList.contains c)) = true
    · constructor
      · show '\\' ∉ (if 0 < i && isAsciiLetter (u.headD ' ') &&
            (u.take i).all (fun c => schemeCharsList.contains c)
          then ((u.take i).map Char.toLower, u.drop (i + 1))
          else (([] : Str), u)).1
        rw [if_pos hc]
        intro hm
        obtain ⟨c, hcm, hlow⟩ := List.mem_map.mp hm
        by_cases hcb : c = '\\'
        · exact hu (hcb ▸ List.take_subset i u hcm)
        · exact toLower_ne_bs c hcb hlow
      · show '\\' ∉ (if 0 < i && isAsciiLetter (u.headD ' ') &&
            (u.take i).all (fun c => schemeCharsList.contains c)
          then ((u.take i).map Char.toLower, u.drop (i + 1))
          else (([] : Str), u)).2
        rw [if_pos hc]
        intro hm
        exact hu (List.drop_subset (i + 1) u hm)
    · constructor
      · show '\\' ∉ (if 0 < i && isAsciiLetter (u.headD ' ') &&
            (u.take i).all (fun c => schemeCharsList.contains c)
          then ((u.take i).map Char.toLower, u.drop (i + 1))
          else (([] : Str), u)).1
        rw [if_neg hc]
        exact fun h => absurd h (List.not_mem_nil _)
      · show '\\' ∉ (if 0 < i && isAsciiLetter (u.headD ' ') &&
            (u.take i).all (fun c => schemeCharsList.contains c)
          then ((u.take i).map Char.toLower, u.drop (i + 1))
          else (([] : Str), u)).2
        rw [if_neg hc]
        exact hu

theorem pyUrlsplit_no_bs (url : Str) (p : SplitResult)
    (h : pyUrlsplit url = .ok p) (hbs : '\\' ∉ url) :
    '\\' ∉ p.scheme ∧ '\\' ∉ p.netloc ∧ '\\' ∉ p.path ∧ '\\' ∉ p.fragment := by
  have hu : '\\' ∉ cleanUrl url := by
    intro hm
    rw [cleanUrl] at hm
    exact hbs (List.dropWhile_subset _ ((List.mem_filter.mp hm).1))
  obtain ⟨hs1, hs2⟩ := splitScheme_no_bs (cleanUrl url) hu
  have hnl1 : '\\' ∉ (splitNetloc (splitScheme (cleanUrl url)).2).1 := by
    intro hm
    exact hs2 (List.drop_subset _ _ (List.takeWhile_subset _ hm))
  have hnl2 : '\\' ∉ (splitNetloc (splitScheme (cleanUrl url)).2).2 := by
    intro hm
    exact hs2 (List.drop_subset _ _ (List.drop_subset _ _ hm))
  rw [pyUrlsplit] at h
  split at h
  · dsimp only [] at h
    split at h
    · exact Except.noConfusion h
    · split at h
      · exact Except.noConfusion h
      · injection h with h
        subst h
        have hsf := splitFragQuery_subset (splitNetloc (splitScheme (cleanUrl url)).2).2
        exact ⟨hs1, hnl1, fun hm => hnl2 (hsf.1 '\\' hm), fun hm => hnl2 (hsf.2.2 '\\' hm)⟩
  · injection h with h
    subst h
    have hsf := splitFragQuery_subset (splitScheme (cleanUrl url)).2
    exact ⟨hs1, fun hm => absurd hm (List.not_mem_nil _),
      fun hm => hs2 (hsf.1 '\\' hm), fun hm => hs2 (hsf.2.2 '\\' hm)⟩

theorem noBS_append {x y : Str} (hx : '\\' ∉ x) (hy : '\\' ∉ y) : '\\' ∉ x ++ y :=
  fun hm => (List.mem_append.mp hm).elim hx hy

theorem noBS_cons {x : Str} {ch : Char} (hc : ch ≠ '\\') (hx : '\\' ∉ x) :
    '\\' ∉ ch :: x :=
  fun hm => (List.mem_cons.mp hm).elim (fun h => hc h.symm) hx

theorem noBS_ite (cnd : Prop) [Decidable cnd] (x y : Str)
    (hx : '\\' ∉ x) (hy : '\\' ∉ y) : '\\' ∉ (if cnd then x else y) := by
  by_cases h : cnd
  · rw [if_pos h]; exact hx
  · rw [if_neg h]; exact hy

theorem pyUrlunsplit_no_bs (c : SplitResult)
    (h1 : '\\' ∉ c.scheme) (h2 : '\\' ∉ c.netloc) (h3 : '\\' ∉ c.path)
    (h4 : '\\' ∉ c.query) (h5 : '\\' ∉ c.fragment) : '\\' ∉ pyUrlunsplit c := by
  have hin : '\\' ∉ (if pyTruthy c.path && c.path.take 1 != pyS "/"
      then '/' :: c.path else c.path) :=
    noBS_ite _ _ _ (noBS_cons (by decide) h3) h3
  have hurl1 : '\\' ∉ (if (pyTruthy c.netloc ||
        (pyTruthy c.scheme && usesNetlocList.contains c.scheme &&
          c.path.take 2 != pyS "//")) = true
      then pyS "//" ++ c.netloc ++ (if pyTruthy c.path && c.path.take 1 != pyS "/"
        then '/' :: c.path else c.path)
      else c.path) :=
    noBS_ite _ _ _ (noBS_append (noBS_append (by decide) h2) hin) h3
  have hurl2 : '\\' ∉ (if (pyTruthy c.scheme) = true
      then c.scheme ++ ':' :: (if (pyTruthy c.netloc ||
          (pyTruthy c.scheme && usesNetlocList.contains c.scheme &&
            c.path.take 2 != pyS "//")) = true
        then pyS "//" ++ c.netloc ++ (if pyTruthy c.path && c.path.take 1 != pyS "/"
          then '/' :: c.path else c.path)
        else c.path)
      else (if (pyTruthy c.netloc ||
          (pyTruthy c.scheme && usesNetlocList.contains c.scheme &&
            c.path.take 2 != pyS "//")) = true
        then pyS "//" ++ c.netloc ++ (if pyTruthy c.path && c.path.take 1 != pyS "/"
          then '/' :: c.path else c.path)
        else c.path)) :=
    noBS_ite _ _ _ (noBS_append h1 (noBS_cons (by decide) hurl1)) hurl1
  have hurl3 := noBS_ite ((pyTruthy c.query) = true) _ _
    (noBS_append hurl2 (noBS_cons (show ('?' : Char) ≠ '\\' by decide) h4)) hurl2
  rw [pyUrlunsplit]
  exact noBS_ite ((pyTruthy c.fragment) = true) _ _
    (noBS_append hurl3 (noBS_cons (show ('#' : Char) ≠ '\\' by decide) h5)) hurl3

set_option maxHeartbeats 1000000 in
theorem append_params_no_bs (psch pkey : Option Str) (url : Str) (hbs : '\\' ∉ url) :
    '\\' ∉ append_params psch pkey url := by
  rcases hp : pyUrlsplit url with e | p
  · rw [append_params_toOption, appendParamsTry, hp]
    exact hbs
  · rw [append_params_eval psch pkey url p hp]
    obtain ⟨hf1, hf2, hf3, hf4⟩ := pyUrlsplit_no_bs url p hp hbs
    exact noBS_ite _ _ _ hbs (noBS_ite _ _ _ hbs
      (pyUrlunsplit_no_bs ⟨p.scheme, p.netloc, p.path,
        pyUrlencode ((appendParamsQ psch pkey (parseQs p.query)).1.map
          (fun kv => (kv.1, kv.2.headD []))), p.fragment⟩
        hf1 hf2 hf3 (pyUrlencode_no_bs _) hf4))

theorem reSearchURI_subset : ∀ (s g : Str), reSearchURI s = some g → ∀ x ∈ g, x ∈ s := by
  intro s
  induction s with
  | nil => intro g h; cases h
  | cons c r ih =>
    intro g h x hx
    rw [reSearchURI] at h
    rcases hm : uriMatchHead (c :: r) with _ | g2
    · rw [hm] at h
      exact List.mem_cons_of_mem _ (ih g h x hx)
    · rw [hm] at h
      injection h with h
      subst h
      rw [uriMatchHead] at hm
      by_cases hpre : (pyS "URI=\"").isPrefixOf (c :: r) = true
      · rw [if_pos hpre] at hm
        dsimp only [] at hm
        split at hm
        · injection hm with hm
          rw [← hm] at hx
          exact List.drop_subset 5 (c :: r)
            (List.takeWhile_subset _ hx)
        · cases hm
      · rw [if_neg hpre] at hm
        cases hm

theorem tmplStep_no_bs (ngroups : Nat) (c : Char) (r : Str) (hc : c ≠ '\\') :
    tmplStep ngroups (c :: r) = .ok (.lit [c], 1) := by
  rw [tmplStep.eq_def]
  split
  · rename_i heq; cases heq
  · rename_i heq; injection heq with h1 h2; exact absurd h1 hc
  · rename_i heq; injection heq with h1 h2; rw [h1]

theorem parseTemplateGo_no_bs (ngroups : Nat) :
    ∀ (fuel : Nat) (s : Str), '\\' ∉ s →
      ∃ ps, parseTemplateGo ngroups fuel s = .ok ps := by
  intro fuel
  induction fuel with
  | zero =>
    intro s h
    cases s with
    | nil => exact ⟨[], rfl⟩
    | cons c r => exact ⟨[], rfl⟩
  | succ fuel ih =>
    intro s h
    cases s with
    | nil => exact ⟨[], rfl⟩
    | cons c r =>
      have hc : c ≠ '\\' := fun hcc => h (List.mem_cons.mpr (Or.inl hcc.symm))
      have hr : '\\' ∉ r := fun hm => h (List.mem_cons_of_mem _ hm)
      obtain ⟨ps, hps⟩ := ih r hr
      refine ⟨.lit [c] :: ps, ?_⟩
      show (match tmplStep ngroups (c :: r) with
        | .error e => Except.error e
        | .ok (p, k) =>
          match parseTemplateGo ngroups fuel (r.drop (k - 1)) with
          | .ok ps2 => Except.ok (p :: ps2)
          | .error e => Except.error e) = Except.ok (TmplPiece.lit [c] :: ps)
      rw [tmplStep_no_bs ngroups c r hc]
      show (match parseTemplateGo ngroups fuel r with
        | .ok ps2 => Except.ok (TmplPiece.lit [c] :: ps2)
        | .error e => Except.error e) = Except.ok (TmplPiece.lit [c] :: ps)
      rw [hps]

theorem reSubURI_ok (new_uri line : Str) (h : '\\' ∉ new_uri) :
    ∃ out, reSubURI new_uri line = .ok out := by
  have htm : '\\' ∉ pyS "URI=\"" ++ new_uri ++ ['"'] :=
    noBS_append (noBS_append (by decide) h) (by decide)
  obtain ⟨ps, hps⟩ := parseTemplateGo_no_bs 1 (pyS "URI=\"" ++ new_uri ++ ['"']).length
    (pyS "URI=\"" ++ new_uri ++ ['"']) htm
  exact ⟨reSubURIAll ps line, by rw [reSubURI, parseTemplate, hps]⟩

theorem splitLinesGo_mem :
    ∀ (s cur l : Str), l ∈ splitLinesGo cur s → ∀ x ∈ l, x ∈ cur ∨ x ∈ s := by
  intro s
  induction s with
  | nil =>
    intro cur l hl x hx
    rw [splitLinesGo] at hl
    by_cases hc : cur.isEmpty = true
    · rw [if_pos hc] at hl
      cases hl
    · rw [if_neg hc] at hl
      rcases List.mem_singleton.mp hl with rfl
      exact Or.inl (List.mem_reverse.mp hx)
  | cons c r ih =>
    intro cur l hl x hx
    rw [splitLinesGo] at hl
    by_cases hb : isLineBreak c = true
    · rw [if_pos hb] at hl
      rcases List.mem_cons.mp hl with h | h
      · subst h
        exact Or.inl (List.mem_reverse.mp hx)
      · rcases ih [] l h x hx with h2 | h2
        · exact absurd h2 (List.not_mem_nil x)
        · exact Or.inr (List.mem_cons_of_mem _ h2)
    · rw [if_neg hb] at hl
      rcases ih (c :: cur) l hl x hx with h2 | h2
      · rcases List.mem_cons.mp h2 with h3 | h3
        · exact Or.inr (h3 ▸ List.mem_cons_self _ _)
        · exact Or.inl h3
      · exact Or.inr (List.mem_cons_of_mem _ h2)

theorem replaceGo_no_bs (old new : Str) (hnew : '\\' ∉ new) :
    ∀ (fuel : Nat) (s : Str), '\\' ∉ s → '\\' ∉ replaceGo old new fuel s := by
  intro fuel
  induction fuel with
  | zero =>
    intro s h
    cases s with
    | nil => exact fun hm => absurd hm (List.not_mem_nil _)
    | cons c r => exact h
  | succ fuel ih =>
    intro s h
    cases s with
    | nil => exact fun hm => absurd hm (List.not_mem_nil _)
    | cons c r =>
      rw [replaceGo]
      by_cases hp : old.isPrefixOf (c :: r) = true
      · rw [if_pos hp]
        exact noBS_append hnew (ih _ (fun hm => h (List.drop_subset _ _ hm)))
      · rw [if_neg hp]
        exact noBS_cons (fun hcc => h (List.mem_cons.mpr (Or.inl hcc.symm)))
          (ih r (fun hm => h (List.mem_cons_of_mem _ hm)))

theorem pySplitlines_no_bs (s : Str) (h : '\\' ∉ s) :
    ∀ l ∈ pySplitlines s, '\\' ∉ l := by
  intro l hl hx
  rw [pySplitlines] at hl
  have h2 : '\\' ∉ replaceAll s (pyS "\r\n") (pyS "\n") := by
    rw [replaceAll, if_neg (by decide)]
    exact replaceGo_no_bs _ _ (by decide) _ _ h
  rcases splitLinesGo_mem _ [] l hl '\\' hx with h3 | h3
  · exact absurd h3 (List.not_mem_nil _)
  · exact h2 h3

theorem m3uLoop_isOk (psch pkey pdkey : Option Str) (ls : List Str)
    (hls : ∀ l ∈ ls, '\\' ∉ l) :
    ∀ pending acc, (m3uLoop psch pkey pdkey ls pending acc).isOk = true := by
  induction ls with
  | nil => intro pending acc; rfl
  | cons line rest ih =>
    intro pending acc
    have hline : '\\' ∉ line := hls line (List.mem_cons_self _ _)
    have hrest : ∀ l ∈ rest, '\\' ∉ l := fun l hl => hls l (List.mem_cons_of_mem _ hl)
    rw [m3uLoop]
    by_cases h1 : mouflonFileAttr.isPrefixOf line = true
    · rw [if_pos h1]
      exact ih hrest _ _
    · rw [if_neg h1]
      by_cases h2 : (mouflonFilename.isSuffixOf line && pyTruthyO pending) = true
      · rw [if_pos h2]
        exact ih hrest _ _
      · rw [if_neg h2]
        by_cases h3 : (pyS "#EXT-X-MAP:").isPrefixOf line = true
        · rw [if_pos h3]
          rcases hg : reSearchURI line with _ | g
          · exact ih hrest _ _
          · have hg2 : '\\' ∉ g := fun hm => hline (reSearchURI_subset line g hg '\\' hm)
            obtain ⟨out, hout⟩ := reSubURI_ok (append_params psch pkey g) line
              (append_params_no_bs psch pkey g hg2)
            show (match reSubURI (append_params psch pkey g) line with
              | .ok line2 => m3uLoop psch pkey pdkey rest pending (acc ++ line2 ++ ['\n'])
              | .error e => Except.error e).isOk = true
            rw [hout]
            exact ih hrest _ _
        · rw [if_neg h3]
          by_cases h4 : (pyS "#EXT-X-PART:").isPrefixOf line = true
          · rw [if_pos h4]
            rcases hg : reSearchURI line with _ | g
            · exact ih hrest _ _
            · have hg2 : '\\' ∉ g := fun hm => hline (reSearchURI_subset line g hg '\\' hm)
              obtain ⟨out, hout⟩ := reSubURI_ok (append_params psch pkey g) line
                (append_params_no_bs psch pkey g hg2)
              show (match reSubURI (append_params psch pkey g) line with
                | .ok line2 => m3uLoop psch pkey pdkey rest pending (acc ++ line2 ++ ['\n'])
                | .error e => Except.error e).isOk = true
              rw [hout]
              exact ih hrest _ _
          · rw [if_neg h4]
            by_cases h5 : ((pyS "http://").isPrefixOf line ||
                (pyS "https://").isPrefixOf line) = true
            · rw [if_pos h5]
              exact ih hrest _ _
            · rw [if_neg h5]
              exact ih hrest _ _

/-- C10 (amended) -- for every key store and every input containing no
    backslash character, `m3u_decoder` returns normally: per-segment decode
    exceptions are caught, and `_append_params` swallows every exception.
    (The claim's unconditional form is false: a backslash inside the
    rewritten `URI="..."` attribute of a `#EXT-X-MAP:`/`#EXT-X-PART:` line
    reaches `re.sub` as a replacement-template escape outside any `try`, and
    `re.error` propagates out of `m3u_decoder`.) -/
theorem m3u_decoder_no_raise (keys : List (Str × Str)) (content : Str)
    (h : '\\' ∉ content) : (m3u_decoder keys content).isOk = true := by
  rw [m3u_decoder]
  exact m3uLoop_isOk _ _ _ _ (pySplitlines_no_bs content h) none []

/-- Witness for C10 (amended) at a concrete backslash-free `#EXT-X-MAP:`
    manifest. -/
theorem m3u_decoder_no_raise_witness :
    (m3u_decoder FALLBACK_KEYS
      (pyS "#EXT-X-MAP:URI=\"http://x/a.mp4\"")).isOk = true :=
  m3u_decoder_no_raise FALLBACK_KEYS
    (pyS "#EXT-X-MAP:URI=\"http://x/a.mp4\"") (by decide)

/-- C10, counterexample to the claim as stated: on a `#EXT-X-MAP:` line
    whose URI holds `\q`, `m3u_decoder` raises `re.error` (bad escape)
    instead of returning normally. -/
theorem m3u_decoder_no_raise_counterexample :
    m3u_decoder FALLBACK_KEYS (pyS "#EXT-X-MAP:URI=\"http://x/a\\qb\"") =
      .error .badEscape := by decide
